import Mathlib

/-!
Verification of core components of the wcg-plcctrlsystem sorting line
controller, shallowly embedded in Lean 4.

Embedded components:
* `AlignedQueue` (src/utils/aligned_queue.py) — bounded FIFO with aligned
  retrieval by position.
* `Template` (src/utils/template_manager.py) — decision template: reject
  bands, composite scoring, dominant-detector bands.
* `SortingTaskManager` (src/core/sorting_task_manager.py) — weight ranges,
  counter with observers, weight-sorting pass.
* `CachedSortingTaskManager` (src/core/CachedSortingTaskManager.py) —
  cache-based custom/weight sorting passes and the batched monitor cycle.
* `PLCCommunicator` (src/core/plc_communicator.py) — bit-index transform,
  control/status bit maps, bulk channel snapshot read.

Python sequential state updates are expressed by explicit state passing;
Python exceptions by an `Except` error monad; the wall clock and external
collaborators (Modbus reads, the data manager) are passed as explicit inputs.
-/

namespace AQ

/-- Queue element: (data, position), as stored by AlignedQueue.put.
Data is abstracted as Nat (the source stores arbitrary objects and never
inspects them). -/
abbrev Entry := Nat × Nat

/-- The scan of AlignedQueue.get_aligned (src/utils/aligned_queue.py:32-63)
over the underlying deque, front of the deque first.  Returns the popped
element (if any) and the remaining queue.
* empty queue: None;
* head position = target: pop and return the head;
* target < head position: None, queue untouched;
* target > head position: discard the head and repeat. -/
def getAlignedList (t : Nat) : List Entry → Option Entry × List Entry
  | [] => (none, [])
  | (d, p) :: rest =>
    if t = p then (some (d, p), rest)
    else if t < p then (none, (d, p) :: rest)
    else getAlignedList t rest

/-- AlignedQueue state: a deque with a maximum length (deque(maxlen=...)). -/
structure AlignedQueue where
  maxLen : Nat
  queue : List Entry
  deriving Repr, DecidableEq

/-- AlignedQueue.put: append at the back; a full deque(maxlen) evicts the
oldest (front) element. -/
def AlignedQueue.put (q : AlignedQueue) (d p : Nat) : AlignedQueue :=
  if q.queue.length < q.maxLen then ⟨q.maxLen, q.queue ++ [(d, p)]⟩
  else ⟨q.maxLen, q.queue.tail ++ [(d, p)]⟩

/-- AlignedQueue.get_aligned on the queue state. -/
def AlignedQueue.getAligned (q : AlignedQueue) (t : Nat) :
    Option Entry × AlignedQueue :=
  let r := getAlignedList t q.queue
  (r.1, ⟨q.maxLen, r.2⟩)

/-- An operation applied to an AlignedQueue: a put or a get_aligned call. -/
inductive Op where
  | put (d p : Nat)
  | get (t : Nat)
  deriving Repr, DecidableEq

/-- Run one operation, returning the value a get_aligned call yields. -/
def runOp (q : AlignedQueue) : Op → Option Entry × AlignedQueue
  | .put d p => (none, q.put d p)
  | .get t => q.getAligned t

/-- Whether some get_aligned call in the operation sequence, started from
state q, returns an entry whose position is pos. -/
def everReturnsPos (pos : Nat) : AlignedQueue → List Op → Bool
  | _, [] => false
  | q, op :: rest =>
    let r := runOp q op
    (match r.1 with
     | some e => pos = e.2
     | none => false) || everReturnsPos pos r.2 rest

/-- The remaining queue after a get_aligned scan is a sublist of the
original queue (the scan only discards elements). -/
theorem getAlignedList_sublist (t : Nat) (l : List Entry) :
    (getAlignedList t l).2.Sublist l := by
  induction l with
  | nil => simp [getAlignedList]
  | cons e rest ih =>
    obtain ⟨d, p⟩ := e
    by_cases h1 : t = p
    · simp [getAlignedList, h1]
    · by_cases h2 : t < p
      · simp [getAlignedList, h1, h2]
      · simpa [getAlignedList, h1, h2] using ih.trans (List.sublist_cons_self _ _)

/-- A returned entry was an element of the queue. -/
theorem getAlignedList_mem (t : Nat) (l : List Entry) (e : Entry)
    (h : (getAlignedList t l).1 = some e) : e ∈ l := by
  induction l with
  | nil => simp [getAlignedList] at h
  | cons f rest ih =>
    obtain ⟨d, p⟩ := f
    by_cases h1 : t = p
    · simp [getAlignedList, h1] at h
      simp [h]
    · by_cases h2 : t < p
      · simp [getAlignedList, h1, h2] at h
      · simp only [getAlignedList, if_neg h1, if_neg h2] at h
        exact List.mem_cons_of_mem _ (ih h)

/-- Positions strictly above pos are preserved by put (when the new element
also lies strictly above pos) and never created from below. -/
theorem put_preserves_above (q : AlignedQueue) (d p pos : Nat)
    (hq : ∀ e ∈ q.queue, pos < e.2) (hp : pos < p) :
    ∀ e ∈ (q.put d p).queue, pos < e.2 := by
  intro e he
  unfold AlignedQueue.put at he
  by_cases h : q.queue.length < q.maxLen
  · simp [h] at he
    rcases he with he | he
    · exact hq e he
    · simp [he, hp]
  · simp [h] at he
    rcases he with he | he
    · exact hq e (List.mem_of_mem_tail he)
    · simp [he, hp]

/-- If every entry in the queue sits strictly above pos, and every later put
also inserts strictly above pos, then no get_aligned call over any operation
sequence ever returns an entry at position pos. -/
theorem everReturnsPos_false (pos : Nat) (q : AlignedQueue) (ops : List Op)
    (hq : ∀ e ∈ q.queue, pos < e.2)
    (hops : ∀ op ∈ ops, ∀ d p, op = Op.put d p → pos < p) :
    everReturnsPos pos q ops = false := by
  induction ops generalizing q with
  | nil => rfl
  | cons op rest ih =>
    cases op with
    | put d p =>
      have hp : pos < p := hops _ (List.mem_cons_self _ _) d p rfl
      simp only [everReturnsPos, runOp, Bool.false_or]
      exact ih _ (put_preserves_above q d p pos hq hp)
        (fun o ho => hops o (List.mem_cons_of_mem _ ho))
    | get t =>
      simp only [everReturnsPos, runOp, AlignedQueue.getAligned]
      have hrest : ∀ e ∈ (getAlignedList t q.queue).2, pos < e.2 := by
        intro e he
        exact hq e ((getAlignedList_sublist t q.queue).mem he)
      have hres :
          (match (getAlignedList t q.queue).1 with
           | some e => decide (pos = e.2)
           | none => false) = false := by
        cases hr : (getAlignedList t q.queue).1 with
        | none => rfl
        | some e =>
          have : pos < e.2 := hq e (getAlignedList_mem t q.queue e hr)
          simp
          omega
      simp only [hres, Bool.false_or]
      exact ih _ hrest (fun o ho => hops o (List.mem_cons_of_mem _ ho))

/-- Non-decreasing positions in the queue, as assumed of enqueued entries. -/
def PosSorted (l : List Entry) : Prop :=
  l.Pairwise (fun a b => a.2 ≤ b.2)

/-- After a get_aligned scan with target t over a queue whose positions are
non-decreasing, every remaining entry has position at least t. -/
theorem getAlignedList_remaining_ge (t : Nat) (l : List Entry)
    (hl : PosSorted l) :
    ∀ e ∈ (getAlignedList t l).2, t ≤ e.2 := by
  induction l with
  | nil => simp [getAlignedList]
  | cons f rest ih =>
    obtain ⟨d, p⟩ := f
    rcases List.pairwise_cons.mp hl with ⟨hhead, hrest⟩
    by_cases h1 : t = p
    · intro e he
      simp only [getAlignedList, if_pos h1] at he
      exact h1 ▸ hhead e he
    · by_cases h2 : t < p
      · intro e he
        simp only [getAlignedList, if_neg h1, if_pos h2] at he
        rcases List.mem_cons.mp he with he | he
        · subst he; exact le_of_lt h2
        · exact le_of_lt (lt_of_lt_of_le h2 (hhead e he))
      · intro e he
        simp only [getAlignedList, if_neg h1, if_neg h2] at he
        exact ih hrest e he

/-- C1 (amended): AlignedQueue.get_aligned follows the alignment algorithm:
an empty queue returns None; a head at the target position is popped and
returned; a target below the head position returns None leaving the queue
unchanged; a target above the head position discards the head and repeats.
Consequently, for puts at strictly increasing positions (equivalently, every
put after the skipping call stays strictly above the skipped position), once
a position has been skipped by a get_aligned call with a larger target, no
later get_aligned call can ever return it. -/
theorem getAligned_cases_and_loss_on_skip :
    (∀ t : Nat, getAlignedList t [] = (none, [])) ∧
    (∀ (t d : Nat) (rest : List Entry),
      getAlignedList t ((d, t) :: rest) = (some (d, t), rest)) ∧
    (∀ (t d p : Nat) (rest : List Entry), t < p →
      getAlignedList t ((d, p) :: rest) = (none, (d, p) :: rest)) ∧
    (∀ (t d p : Nat) (rest : List Entry), p < t →
      getAlignedList t ((d, p) :: rest) = getAlignedList t rest) ∧
    (∀ (q : AlignedQueue) (t pos : Nat) (ops : List Op),
      PosSorted q.queue → pos < t →
      (∀ op ∈ ops, ∀ d p, op = Op.put d p → pos < p) →
      everReturnsPos pos (q.getAligned t).2 ops = false) := by
  refine ⟨fun t => rfl, fun t d rest => by simp [getAlignedList],
    fun t d p rest h => by
      have h1 : t ≠ p := Nat.ne_of_lt h
      simp [getAlignedList, h1, h],
    fun t d p rest h => by
      have h1 : t ≠ p := (Nat.ne_of_lt h).symm
      have h2 : ¬ t < p := by omega
      simp [getAlignedList, h1, h2],
    fun q t pos ops hsorted hlt hops => ?_⟩
  apply everReturnsPos_false
  · intro e he
    have := getAlignedList_remaining_ge t q.queue hsorted e he
    omega
  · exact hops

/-- C1 witness: concrete instantiations discharging every hypothesis of the
loss-on-skip theorem. -/
theorem getAligned_cases_and_loss_on_skip_witness :
    getAlignedList 4 [(9, 6)] = (none, [(9, 6)]) ∧
    getAlignedList 7 [(9, 6)] = getAlignedList 7 [] ∧
    everReturnsPos 3 ((AlignedQueue.mk 5 [(7, 3)]).getAligned 4).2
      [Op.put 9 5, Op.get 3] = false := by
  refine ⟨getAligned_cases_and_loss_on_skip.2.2.1 4 9 6 [] (by omega),
    getAligned_cases_and_loss_on_skip.2.2.2.1 7 9 6 [] (by omega),
    getAligned_cases_and_loss_on_skip.2.2.2.2 ⟨5, [(7, 3)]⟩ 4 3
      [Op.put 9 5, Op.get 3] ?_ (by omega) ?_⟩
  · unfold PosSorted
    simp
  · intro op hop d p hep
    fin_cases hop
    · injection hep with h1 h2; omega
    · exact Op.noConfusion hep

/-- C1 counterexample to the claim as stated: with the non-decreasing put
position sequence 6, 6, position 6 is skipped by getAligned 7 (the entry at
6 is discarded and None returned), yet after a further put at the equal
position 6 a later getAligned 6 call returns position 6. -/
theorem getAligned_skipped_position_returned_counterexample :
    ((((AlignedQueue.mk 5 []).put 0 6).getAligned 7).1 = none) ∧
    (((((AlignedQueue.mk 5 []).put 0 6).getAligned 7).2).queue = []) ∧
    (((((((AlignedQueue.mk 5 []).put 0 6).getAligned 7).2).put 1 6).getAligned 6).1
      = some (1, 6)) ∧
    everReturnsPos 6 (AlignedQueue.mk 5 [])
      [Op.put 0 6, Op.get 7, Op.put 1 6, Op.get 6] = true := by
  constructor
  · rfl
  · constructor
    · rfl
    · constructor <;> rfl

end AQ

namespace TPL

/-- Python exceptions that Template.get_channel can raise. -/
inductive PyErr where
  | typeError
  | zeroDivision
  deriving Repr, DecidableEq

/-- Python int(x) applied to a stored XML attribute value.  Attribute strings
are modelled by their integer value (`some n`); an absent attribute (None) is
`none` and raises TypeError under int(). -/
def pyInt : Option Int → Except PyErr Int
  | some n => .ok n
  | none => .error .typeError

/-- Python true division a / b on integers: exact division in ℚ, raising
ZeroDivisionError when b = 0 (float rounding is idealized away). -/
def pyDiv (a b : Int) : Except PyErr ℚ :=
  if b = 0 then .error .zeroDivision else .ok ((a : ℚ) / (b : ℚ))

/-- A parsed <level> node (Template._parse_levels): out/subout attribute
values as stored by attrib.get (possibly absent), min/max parsed with int()
at load time. -/
structure Level where
  out : Option Int
  subout : Option Int
  lmin : Int
  lmax : Int
  deriving Repr, DecidableEq

/-- A parsed detector entry of the _detectors dict (Template._parse_template):
wg and max attribute values as stored by attrib.get — `none` models an absent
(or empty, hence falsy) attribute, `some n` a numeric attribute string
(including "0", which is a truthy string). -/
structure Detector where
  wg : Option Int
  dmax : Option Int
  badLevel : List Level
  goodLevel : List Level
  deriving Repr, DecidableEq

/-- A parsed <score> entry: (out, subout, int(text)). -/
structure ScoreEntry where
  out : Option Int
  subout : Option Int
  threshold : Int
  deriving Repr, DecidableEq

/-- A parsed Template: scores enable flag, score table in document order,
and the _detectors dict as an association list in insertion (document)
order.  Template._parse_template stores all of this without any numeric
validation. -/
structure Template where
  scoresEnabled : Bool
  scoresConfig : List ScoreEntry
  detectors : List (String × Detector)
  deriving Repr, DecidableEq

/-- Template._check_bad_level: look the detector up in the dict; scan its
badLevel list in order and return int(level.out) for the first level whose
[min, max] interval contains the value. -/
def checkBadLevel (detectors : List (String × Detector)) (name : String)
    (value : Int) : Except PyErr (Option Int) :=
  match detectors.lookup name with
  | none => .ok none
  | some d =>
    match d.badLevel.find? (fun l => decide (l.lmin ≤ value ∧ value ≤ l.lmax)) with
    | none => .ok none
    | some l => do
      let o ← pyInt l.out
      return (some o)

/-- Template._get_channel_from_level: return int(out) when the current
wall-clock second is even, int(subout) when it is odd.  The clock read
datetime.now().second is passed in as currentSecond. -/
def getChannelFromLevel (out subout : Option Int) (currentSecond : Nat) :
    Except PyErr Int :=
  if currentSecond % 2 = 0 then pyInt out else pyInt subout

/-- Stable insertion step for sorting the score table by descending
threshold (earlier entries stay in front of equal thresholds), matching
Python sorted(key, reverse=True). -/
def insertDesc (a : ScoreEntry) : List ScoreEntry → List ScoreEntry
  | [] => [a]
  | b :: l => if b.threshold ≤ a.threshold then a :: b :: l else b :: insertDesc a l

/-- Stable sort of the score table by descending threshold, as produced by
sorted(self._scores_config, key=lambda x: x[2], reverse=True). -/
def sortScoresDesc : List ScoreEntry → List ScoreEntry
  | [] => []
  | a :: l => insertDesc a (sortScoresDesc l)

/-- The composite-scoring branch of Template.get_channel (scores enabled):
compute the weighted normalized score, scan the descending-sorted score
table for the first entry whose threshold is at most the score, re-find that
threshold in the original table and resolve the entry's out/subout pair by
current-second parity. -/
def scoreBranch (t : Template) (weightValue waterValue : Int)
    (currentSecond : Nat) : Except PyErr (Option Int) := do
  let wgWeightStr : Option Int :=
    match t.detectors.lookup "weight" with
    | some d => d.wg
    | none => some 0
  let wgWaterStr : Option Int :=
    match t.detectors.lookup "water" with
    | some d => d.wg
    | none => some 0
  -- source line: wg_weight = int(wg_weight_str) if wg_water_str else 0
  -- (the tested string is wg_water_str in both assignments)
  let wgWeight ← if wgWaterStr.isSome then pyInt wgWeightStr else pure 0
  let wgWater ← if wgWaterStr.isSome then pyInt wgWaterStr else pure 0
  -- source: .get("max", 0) — an absent detector yields the falsy int 0
  let weightMaxStr : Option Int :=
    match t.detectors.lookup "weight" with
    | some d => d.dmax
    | none => none
  let waterMaxStr : Option Int :=
    match t.detectors.lookup "water" with
    | some d => d.dmax
    | none => none
  let weightMax ← if weightMaxStr.isSome then pyInt weightMaxStr else pure 0
  -- source line: water_max = int(water_max_str) if weight_max_str else 0
  -- (the tested string is weight_max_str)
  let waterMax ← if weightMaxStr.isSome then pyInt waterMaxStr else pure 0
  let s1 ← pyDiv (wgWeight * weightValue) weightMax
  let s2 ← pyDiv (wgWater * waterValue) waterMax
  let score : ℚ := s1 + s2
  match (sortScoresDesc t.scoresConfig).find?
      (fun e => decide ((e.threshold : ℚ) ≤ score)) with
  | some e =>
    match t.scoresConfig.find? (fun f => f.threshold == e.threshold) with
    | some f => do
      let c ← getChannelFromLevel f.out f.subout currentSecond
      return (some c)
    | none => return none  -- unreachable: e is drawn from a permutation of the table
  | none => return none

/-- The dominant-detector branch of Template.get_channel (scores disabled):
first detector in dict order whose wg attribute is the string "100"; scan
its goodLevel bands for the detector's own value. -/
def dominantBranch (t : Template) (weightValue waterValue : Int)
    (currentSecond : Nat) : Except PyErr (Option Int) :=
  match t.detectors.find? (fun p => p.2.wg == some (100 : Int)) with
  | none => .ok none
  | some (name, det) =>
    let dominantValue := if name == "weight" then weightValue else waterValue
    match det.goodLevel.find?
        (fun l => decide (l.lmin ≤ dominantValue ∧ dominantValue ≤ l.lmax)) with
    | none => .ok none
    | some l => do
      let c ← getChannelFromLevel l.out l.subout currentSecond
      return (some c)

/-- Template.get_channel (src/utils/template_manager.py:86-146): badLevel
checks on weight then water take precedence; then the composite-scoring
branch when scores are enabled, else the dominant-detector branch; no rule
matching gives None. -/
def getChannel (t : Template) (weightValue waterValue : Int)
    (currentSecond : Nat) : Except PyErr (Option Int) := do
  let bad1 ← checkBadLevel t.detectors "weight" weightValue
  match bad1 with
  | some c => return (some c)
  | none =>
    let bad2 ← checkBadLevel t.detectors "water" waterValue
    match bad2 with
    | some c => return (some c)
    | none =>
      if t.scoresEnabled then
        scoreBranch t weightValue waterValue currentSecond
      else
        dominantBranch t weightValue waterValue currentSecond

/-- Membership is invariant under the descending insertion step. -/
theorem mem_insertDesc (x a : ScoreEntry) (l : List ScoreEntry) :
    x ∈ insertDesc a l ↔ x = a ∨ x ∈ l := by
  induction l with
  | nil => simp [insertDesc]
  | cons b l ih =>
    by_cases h : b.threshold ≤ a.threshold
    · simp [insertDesc, h]
    · simp only [insertDesc, if_neg h, List.mem_cons, ih]
      tauto

/-- Membership is invariant under the descending sort. -/
theorem mem_sortScoresDesc (x : ScoreEntry) (l : List ScoreEntry) :
    x ∈ sortScoresDesc l ↔ x ∈ l := by
  induction l with
  | nil => simp [sortScoresDesc]
  | cons a l ih =>
    simp only [sortScoresDesc, mem_insertDesc, ih, List.mem_cons]

/-- Thresholds are non-increasing along the descending sort order. -/
def ThrDesc (l : List ScoreEntry) : Prop :=
  l.Pairwise (fun a b => b.threshold ≤ a.threshold)

/-- The insertion step preserves descending sortedness. -/
theorem thrDesc_insertDesc (a : ScoreEntry) (l : List ScoreEntry)
    (hl : ThrDesc l) : ThrDesc (insertDesc a l) := by
  induction l with
  | nil => simp [insertDesc, ThrDesc]
  | cons b l ih =>
    rcases List.pairwise_cons.mp hl with ⟨hb, hl'⟩
    by_cases h : b.threshold ≤ a.threshold
    · unfold ThrDesc
      rw [insertDesc, if_pos h]
      refine List.pairwise_cons.mpr ⟨?_, hl⟩
      intro y hy
      rcases List.mem_cons.mp hy with hy | hy
      · subst hy; exact h
      · exact le_trans (hb y hy) h
    · unfold ThrDesc
      rw [insertDesc, if_neg h]
      refine List.pairwise_cons.mpr ⟨?_, ih hl'⟩
      intro y hy
      rcases (mem_insertDesc y a l).mp hy with hy | hy
      · subst hy; omega
      · exact hb y hy

/-- The descending sort produces a non-increasing threshold sequence. -/
theorem thrDesc_sortScoresDesc (l : List ScoreEntry) :
    ThrDesc (sortScoresDesc l) := by
  induction l with
  | nil => exact List.Pairwise.nil
  | cons a l ih => exact thrDesc_insertDesc a (sortScoresDesc l) ih

/-- On a descending-sorted table, the first entry whose threshold is at most
the score carries the maximum such threshold. -/
theorem find?_thrDesc_max (l : List ScoreEntry) (score : ℚ)
    (hl : ThrDesc l) (x : ScoreEntry)
    (hx : l.find? (fun e => decide ((e.threshold : ℚ) ≤ score)) = some x) :
    ∀ f ∈ l, (f.threshold : ℚ) ≤ score → f.threshold ≤ x.threshold := by
  induction l with
  | nil => simp at hx
  | cons a l ih =>
    rcases List.pairwise_cons.mp hl with ⟨ha, hl'⟩
    by_cases hpa : (a.threshold : ℚ) ≤ score
    · rw [List.find?_cons_of_pos _ (by simpa using hpa)] at hx
      cases hx
      intro f hf _
      rcases List.mem_cons.mp hf with hf | hf
      · subst hf; exact le_refl _
      · exact ha f hf
    · rw [List.find?_cons_of_neg _ (by simpa using hpa)] at hx
      intro f hf hfle
      rcases List.mem_cons.mp hf with hf | hf
      · subst hf; exact absurd hfle hpa
      · exact ih hl' hx f hf hfle

/-- The template of the repository's example configuration (template id 1):
composite scoring enabled with score table (8,9)@80, (10,11)@60, (12,13)@40;
weight profile wg=50, max=799, reject band [0,500] to lane 1, accept band
[501,799] to (9,10); water profile wg=50, max=59, reject band [-10,20] to
lane 2, accept band [21,59] to (7,8). -/
def exampleTemplate : Template :=
  ⟨true,
   [⟨some 8, some 9, 80⟩, ⟨some 10, some 11, 60⟩, ⟨some 12, some 13, 40⟩],
   [("weight", ⟨some 50, some 799, [⟨some 1, none, 0, 500⟩],
      [⟨some 9, some 10, 501, 799⟩]⟩),
    ("water", ⟨some 50, some 59, [⟨some 2, none, -10, 20⟩],
      [⟨some 7, some 8, 21, 59⟩]⟩)]⟩

/-- A template whose composite-scored weight profile has the normalization
max attribute "0".  Template._parse_template stores attribute strings
without numeric validation, so this configuration is accepted at load
time. -/
def zeroMaxTemplate : Template :=
  ⟨true,
   [⟨some 8, some 9, 60⟩],
   [("weight", ⟨some 50, some 0, [], []⟩),
    ("water", ⟨some 50, some 59, [], []⟩)]⟩

/-- Bind on a successful Except value reduces to the continuation. -/
theorem exBind_ok {ε α β : Type} (a : α) (f : α → Except ε β) :
    ((Except.ok a : Except ε α) >>= f) = f a := rfl

/-- The composite score wg_weight·weight/weight_max + wg_water·water/water_max
as computed by the scores branch (exact rational arithmetic). -/
def compositeScore (wgW wv mW wgA wtv mA : Int) : ℚ :=
  ((wgW * wv : Int) : ℚ) / ((mW : Int) : ℚ) + ((wgA * wtv : Int) : ℚ) / ((mA : Int) : ℚ)

/-- With both detectors present, both wg attributes numeric and both max
attributes numeric and non-zero, the scores branch reduces to the
descending-order table scan at the composite score. -/
theorem scoreBranch_eq_find (t : Template) (wv wtv : Int) (sec : Nat)
    (dw da : Detector) (wgW wgA mW mA : Int)
    (hdw : t.detectors.lookup "weight" = some dw)
    (hda : t.detectors.lookup "water" = some da)
    (hwgw : dw.wg = some wgW) (hwga : da.wg = some wgA)
    (hmw : dw.dmax = some mW) (hma : da.dmax = some mA)
    (hmw0 : mW ≠ 0) (hma0 : mA ≠ 0) :
    scoreBranch t wv wtv sec =
      match (sortScoresDesc t.scoresConfig).find?
          (fun e => decide ((e.threshold : ℚ) ≤ compositeScore wgW wv mW wgA wtv mA)) with
      | some e =>
        match t.scoresConfig.find? (fun f => f.threshold == e.threshold) with
        | some f => (getChannelFromLevel f.out f.subout sec).map some
        | none => .ok none
      | none => .ok none := by
  unfold scoreBranch
  rw [hdw, hda]
  simp only [hwgw, hwga, hmw, hma, Option.isSome_some, if_true, pyInt, pyDiv,
    if_neg hmw0, if_neg hma0, exBind_ok, compositeScore]
  cases hfind : (sortScoresDesc t.scoresConfig).find?
      (fun e => decide ((e.threshold : ℚ) ≤
        ((wgW * wv : Int) : ℚ) / ((mW : Int) : ℚ) +
        ((wgA * wtv : Int) : ℚ) / ((mA : Int) : ℚ))) with
  | none => rfl
  | some e =>
    show (match t.scoresConfig.find? (fun f => f.threshold == e.threshold) with
          | some f => do
              let c ← getChannelFromLevel f.out f.subout sec
              return (some c)
          | none => (.ok none : Except PyErr (Option Int))) =
         (match t.scoresConfig.find? (fun f => f.threshold == e.threshold) with
          | some f => (getChannelFromLevel f.out f.subout sec).map some
          | none => (.ok none : Except PyErr (Option Int)))
    cases t.scoresConfig.find? (fun f => f.threshold == e.threshold) with
    | none => rfl
    | some f =>
      show (do
        let c ← getChannelFromLevel f.out f.subout sec
        return (some c)) = (getChannelFromLevel f.out f.subout sec).map some
      cases getChannelFromLevel f.out f.subout sec <;> rfl

/-- On the example template the descending scan at score
50·600/799 + 50·40/59 passes the threshold-80 entry and stops at the
threshold-60 entry. -/
theorem exampleTemplate_select_sixty :
    (sortScoresDesc exampleTemplate.scoresConfig).find?
        (fun e => decide ((e.threshold : ℚ) ≤ compositeScore 50 600 799 50 40 59)) =
      some ⟨some 10, some 11, 60⟩ := by
  have hs : sortScoresDesc exampleTemplate.scoresConfig =
      [⟨some 8, some 9, 80⟩, ⟨some 10, some 11, 60⟩, ⟨some 12, some 13, 40⟩] := rfl
  rw [hs]
  rw [List.find?_cons_of_neg _ (by
    simp only [decide_eq_true_eq]
    unfold compositeScore
    norm_num)]
  rw [List.find?_cons_of_pos _ (by
    simp only [decide_eq_true_eq]
    unfold compositeScore
    norm_num)]

/-- On the example template at weight 600 and water 40 get_channel resolves
the threshold-60 entry's lane pair (10, 11) by current-second parity. -/
theorem exampleTemplate_eval (sec : Nat) :
    getChannel exampleTemplate 600 40 sec =
      (getChannelFromLevel (some 10) (some 11) sec).map some := by
  have hred := scoreBranch_eq_find exampleTemplate 600 40 sec
    ⟨some 50, some 799, [⟨some 1, none, 0, 500⟩], [⟨some 9, some 10, 501, 799⟩]⟩
    ⟨some 50, some 59, [⟨some 2, none, -10, 20⟩], [⟨some 7, some 8, 21, 59⟩]⟩
    50 50 799 59 rfl rfl rfl rfl rfl rfl (by norm_num) (by norm_num)
  have hg : getChannel exampleTemplate 600 40 sec =
      scoreBranch exampleTemplate 600 40 sec := rfl
  rw [hg, hred, exampleTemplate_select_sixty]
  rfl

/-- C4: with no reject band matching and composite scoring enabled,
get_channel computes score = wgWeight·weight/maxWeight + wgWater·water/maxWater
and (a) returns None when no score-table threshold is at most the score;
(b) otherwise resolves the entry carrying the maximum threshold at most the
score — the first entry met by the descending-threshold scan — through the
out/subout pair; (c) the pair is resolved by current-second parity, primary
lane on even seconds; (d) on the example template with wgWeight=50,
maxWeight=799, wgWater=50, maxWater=59, weight=600, water=40 the score is
≈71.45 (strictly between 71.44 and 71.45) and the threshold-60 entry (lanes
10/11) is selected. -/
theorem getChannel_composite_scoring :
    (∀ (t : Template) (wv wtv : Int) (sec : Nat) (dw da : Detector)
      (wgW wgA mW mA : Int),
      checkBadLevel t.detectors "weight" wv = .ok none →
      checkBadLevel t.detectors "water" wtv = .ok none →
      t.scoresEnabled = true →
      t.detectors.lookup "weight" = some dw →
      t.detectors.lookup "water" = some da →
      dw.wg = some wgW → da.wg = some wgA →
      dw.dmax = some mW → da.dmax = some mA →
      mW ≠ 0 → mA ≠ 0 →
      ((∀ e ∈ t.scoresConfig,
          ¬ ((e.threshold : ℚ) ≤ compositeScore wgW wv mW wgA wtv mA)) →
        getChannel t wv wtv sec = .ok none) ∧
      (∀ e ∈ t.scoresConfig,
        (e.threshold : ℚ) ≤ compositeScore wgW wv mW wgA wtv mA →
        ∃ e', e' ∈ t.scoresConfig ∧
          (e'.threshold : ℚ) ≤ compositeScore wgW wv mW wgA wtv mA ∧
          (∀ f ∈ t.scoresConfig,
            (f.threshold : ℚ) ≤ compositeScore wgW wv mW wgA wtv mA →
            f.threshold ≤ e'.threshold) ∧
          t.scoresConfig.find? (fun f => f.threshold == e'.threshold) = some e' ∧
          getChannel t wv wtv sec =
            (getChannelFromLevel e'.out e'.subout sec).map some)) ∧
    (∀ (o so : Int) (sec : Nat),
      getChannelFromLevel (some o) (some so) sec =
        .ok (if sec % 2 = 0 then o else so)) ∧
    ((7144 : ℚ)/100 < compositeScore 50 600 799 50 40 59 ∧
      compositeScore 50 600 799 50 40 59 < (7145 : ℚ)/100) ∧
    getChannel exampleTemplate 600 40 0 = .ok (some 10) ∧
    getChannel exampleTemplate 600 40 1 = .ok (some 11) := by
  refine ⟨?_, ?_, ?_, ?_, ?_⟩
  · intro t wv wtv sec dw da wgW wgA mW mA hb1 hb2 hen hdw hda hwgw hwga hmw
      hma hmw0 hma0
    have hred := scoreBranch_eq_find t wv wtv sec dw da wgW wgA mW mA hdw hda
      hwgw hwga hmw hma hmw0 hma0
    have hg : getChannel t wv wtv sec = scoreBranch t wv wtv sec := by
      unfold getChannel
      rw [hb1, hb2, exBind_ok]
      show (match (none : Option Int) with
            | some c => pure (some c)
            | none => _) = _
      rw [exBind_ok]
      show (if t.scoresEnabled then scoreBranch t wv wtv sec
            else dominantBranch t wv wtv sec) = _
      rw [hen]
      rfl
    constructor
    · intro hnone
      have hfn : (sortScoresDesc t.scoresConfig).find?
          (fun e => decide ((e.threshold : ℚ) ≤
            compositeScore wgW wv mW wgA wtv mA)) = none := by
        refine List.find?_eq_none.mpr (fun x hx => ?_)
        have hxm := (mem_sortScoresDesc x t.scoresConfig).mp hx
        simpa using hnone x hxm
      rw [hg, hred, hfn]
    · intro e he hle
      have hmem' : e ∈ sortScoresDesc t.scoresConfig :=
        (mem_sortScoresDesc e t.scoresConfig).mpr he
      obtain ⟨x, hx⟩ : ∃ x, (sortScoresDesc t.scoresConfig).find?
          (fun e => decide ((e.threshold : ℚ) ≤
            compositeScore wgW wv mW wgA wtv mA)) = some x := by
        cases hf : (sortScoresDesc t.scoresConfig).find?
            (fun e => decide ((e.threshold : ℚ) ≤
              compositeScore wgW wv mW wgA wtv mA)) with
        | none =>
          exact absurd hle (by simpa using List.find?_eq_none.mp hf e hmem')
        | some x => exact ⟨x, rfl⟩
      have hpx : (x.threshold : ℚ) ≤ compositeScore wgW wv mW wgA wtv mA := by
        simpa using List.find?_some hx
      have hxmem : x ∈ t.scoresConfig :=
        (mem_sortScoresDesc x t.scoresConfig).mp (List.mem_of_find?_eq_some hx)
      have hmax := find?_thrDesc_max (sortScoresDesc t.scoresConfig)
        (compositeScore wgW wv mW wgA wtv mA)
        (thrDesc_sortScoresDesc t.scoresConfig) x hx
      obtain ⟨f0, hf0⟩ : ∃ f0, t.scoresConfig.find?
          (fun f => f.threshold == x.threshold) = some f0 := by
        cases hf : t.scoresConfig.find? (fun f => f.threshold == x.threshold) with
        | none =>
          have := List.find?_eq_none.mp hf x hxmem
          simp at this
        | some f0 => exact ⟨f0, rfl⟩
      have hf0mem : f0 ∈ t.scoresConfig := List.mem_of_find?_eq_some hf0
      have hf0thr : f0.threshold = x.threshold := by
        have := List.find?_some hf0
        simpa using this
      refine ⟨f0, hf0mem, ?_, ?_, ?_, ?_⟩
      · rw [hf0thr]; exact hpx
      · intro f hf hfle
        have := hmax f ((mem_sortScoresDesc f t.scoresConfig).mpr hf) (by simpa using hfle)
        omega
      · rw [hf0thr]; exact hf0
      · rw [hg, hred, hx]
        show (match t.scoresConfig.find? (fun f => f.threshold == x.threshold) with
              | some f => (getChannelFromLevel f.out f.subout sec).map some
              | none => (.ok none : Except PyErr (Option Int))) = _
        rw [hf0]
  · intro o so sec
    unfold getChannelFromLevel pyInt
    by_cases h : sec % 2 = 0 <;> simp [h]
  · constructor <;> (unfold compositeScore; norm_num)
  · rw [exampleTemplate_eval 0]; rfl
  · rw [exampleTemplate_eval 1]; rfl

/-- C4 witness: the general composite-scoring law applied to the example
template at weight 600, water 40, second 0, all hypotheses discharged
concretely. -/
theorem getChannel_composite_scoring_witness :
    ∃ e', e' ∈ exampleTemplate.scoresConfig ∧
      (e'.threshold : ℚ) ≤ compositeScore 50 600 799 50 40 59 ∧
      (∀ f ∈ exampleTemplate.scoresConfig,
        (f.threshold : ℚ) ≤ compositeScore 50 600 799 50 40 59 →
        f.threshold ≤ e'.threshold) ∧
      exampleTemplate.scoresConfig.find?
        (fun f => f.threshold == e'.threshold) = some e' ∧
      getChannel exampleTemplate 600 40 0 =
        (getChannelFromLevel e'.out e'.subout 0).map some := by
  have h := (getChannel_composite_scoring.1 exampleTemplate 600 40 0
    ⟨some 50, some 799, [⟨some 1, none, 0, 500⟩], [⟨some 9, some 10, 501, 799⟩]⟩
    ⟨some 50, some 59, [⟨some 2, none, -10, 20⟩], [⟨some 7, some 8, 21, 59⟩]⟩
    50 50 799 59 (by rfl) (by rfl) (by rfl) (by rfl) (by rfl) (by rfl)
    (by rfl) (by rfl) (by rfl) (by norm_num) (by norm_num)).2
  exact h ⟨some 10, some 11, 60⟩ (by simp [exampleTemplate])
    (by unfold compositeScore; norm_num)

/-- C7: a weight value inside a reject band of the weight profile makes
Template.get_channel return that band's primary lane immediately — for
every template (hence regardless of the composite-score configuration or
score table) and every water value; and when the weight value matches no
weight reject band, a water value inside a water reject band returns that
band's primary lane before any scoring or dominant-band evaluation. -/
theorem getChannel_reject_band_precedence :
    (∀ (t : Template) (wv wtv : Int) (sec : Nat) (dw : Detector)
      (l0 : Level) (o : Int),
      t.detectors.lookup "weight" = some dw →
      dw.badLevel.find? (fun l => decide (l.lmin ≤ wv ∧ wv ≤ l.lmax)) = some l0 →
      l0.out = some o →
      getChannel t wv wtv sec = .ok (some o)) ∧
    (∀ (t : Template) (wv wtv : Int) (sec : Nat) (da : Detector)
      (l0 : Level) (o : Int),
      checkBadLevel t.detectors "weight" wv = .ok none →
      t.detectors.lookup "water" = some da →
      da.badLevel.find? (fun l => decide (l.lmin ≤ wtv ∧ wtv ≤ l.lmax)) = some l0 →
      l0.out = some o →
      getChannel t wv wtv sec = .ok (some o)) := by
  constructor
  · intro t wv wtv sec dw l0 o hdw hfind hout
    have hbad : checkBadLevel t.detectors "weight" wv = .ok (some o) := by
      unfold checkBadLevel
      rw [hdw]
      simp only [hfind, hout, pyInt]
      rfl
    unfold getChannel
    rw [hbad]
    rfl
  · intro t wv wtv sec da l0 o hb1 hda hfind hout
    have hbad : checkBadLevel t.detectors "water" wtv = .ok (some o) := by
      unfold checkBadLevel
      rw [hda]
      simp only [hfind, hout, pyInt]
      rfl
    unfold getChannel
    rw [hb1, hbad]
    rfl

/-- C7 witness: in the example template, weight 300 sits in the weight
reject band [0,500] and yields lane 1 for any water value; with weight 600
outside every weight reject band, water 10 sits in the water reject band
[-10,20] and yields lane 2. -/
theorem getChannel_reject_band_precedence_witness :
    getChannel exampleTemplate 300 40 0 = .ok (some 1) ∧
    getChannel exampleTemplate 600 10 1 = .ok (some 2) := by
  constructor
  · exact getChannel_reject_band_precedence.1 exampleTemplate 300 40 0
      ⟨some 50, some 799, [⟨some 1, none, 0, 500⟩], [⟨some 9, some 10, 501, 799⟩]⟩
      ⟨some 1, none, 0, 500⟩ 1 (by rfl) (by rfl) (by rfl)
  · exact getChannel_reject_band_precedence.2 exampleTemplate 600 10 1
      ⟨some 50, some 59, [⟨some 2, none, -10, 20⟩], [⟨some 7, some 8, 21, 59⟩]⟩
      ⟨some 2, none, -10, 20⟩ 2 (by rfl) (by rfl) (by rfl) (by rfl)

/-- C8 counterexample: the zero-normalizer template is representable as a
loaded template (Template._parse_template stores the max attribute without
validation), and Template.get_channel raises ZeroDivisionError on it at
evaluation time instead of the configuration having been rejected at load
time. -/
theorem getChannel_zero_normalizer_divides_by_zero :
    getChannel zeroMaxTemplate 600 40 0 = .error .zeroDivision := by rfl

/-- C8 (amended): Template._parse_template performs no normalizer
validation, and for every template whose composite-scored weight profile
carries a zero normalization max, get_channel reaches the score computation
(no reject band matching) and raises ZeroDivisionError at evaluation
time. -/
theorem getChannel_zero_normalizer_error (t : Template) (wv wtv : Int)
    (sec : Nat) (dw da : Detector) (wgW wgA mA : Int)
    (hb1 : checkBadLevel t.detectors "weight" wv = .ok none)
    (hb2 : checkBadLevel t.detectors "water" wtv = .ok none)
    (hen : t.scoresEnabled = true)
    (hdw : t.detectors.lookup "weight" = some dw)
    (hda : t.detectors.lookup "water" = some da)
    (hwgw : dw.wg = some wgW) (hwga : da.wg = some wgA)
    (hmw : dw.dmax = some 0) (hma : da.dmax = some mA) :
    getChannel t wv wtv sec = .error .zeroDivision := by
  unfold getChannel
  rw [hb1, hb2]
  show (if t.scoresEnabled then scoreBranch t wv wtv sec
        else dominantBranch t wv wtv sec) = _
  rw [hen, if_pos rfl]
  unfold scoreBranch
  rw [hdw, hda]
  simp only [hwgw, hwga, hmw, hma, Option.isSome_some, if_true, pyInt]
  rfl

/-- C8 amended-theorem witness at the zero-normalizer template. -/
theorem getChannel_zero_normalizer_error_witness :
    getChannel zeroMaxTemplate 600 40 0 = .error .zeroDivision :=
  getChannel_zero_normalizer_error zeroMaxTemplate 600 40 0
    ⟨some 50, some 0, [], []⟩ ⟨some 50, some 59, [], []⟩ 50 50 59
    (by rfl) (by rfl) (by rfl) (by rfl) (by rfl) (by rfl) (by rfl)
    (by rfl) (by rfl)

end TPL

namespace STM

/-- WeightRange (src/core/sorting_task_manager.py:10-19): immutable
min/max/grade triple. -/
structure WeightRange where
  min_weight : Int
  max_weight : Int
  grade : Int
  deriving Repr, DecidableEq

/-- WeightRange.matches: min_weight <= weight <= max_weight. -/
def WeightRange.matches (r : WeightRange) (weight : Int) : Bool :=
  decide (r.min_weight ≤ weight ∧ weight ≤ r.max_weight)

/-- The grade written for one pending slot by _process_weight_sorting: the
weight-range list is scanned in order, the first matching range's grade is
written; the for-else branch writes grade 0 when no range matches. -/
def weightGradeDecision (ranges : List WeightRange) (weight : Int) : Int :=
  match ranges.find? (fun r => r.matches weight) with
  | some r => r.grade
  | none => 0

/-- One decoded slot dict of a channel's grades data: sequence, weight,
grade and the grade field's register address. -/
structure SlotItem where
  sequence : Nat
  weight : Int
  grade : Int
  address : Nat
  deriving Repr, DecidableEq

/-- The all-channels data dict: channel key ("channel_A", ...) to decoded
slot list, None for a failed decode. -/
abbrev ChannelsData := List (String × Option (List SlotItem))

/-- Channel letter extraction channel_name.split('_')[1]. -/
def letterOf (channelName : String) : String :=
  (channelName.splitOn "_").getD 1 ""

/-- The set_channel_grade write commands issued by one
_process_weight_sorting pass with custom sorting disabled: every slot with
the PENDING grade 100 gets the weight-range decision for its weight;
channels with falsy (absent or empty) data are skipped, and the pass does
nothing when weight sorting is disabled or no ranges are configured. -/
def processWeightSorting (enableWeight : Bool) (ranges : List WeightRange)
    (data : ChannelsData) : List (String × Nat × Int) :=
  if !enableWeight || ranges.isEmpty then []
  else
    data.flatMap (fun c =>
      match c.2 with
      | none => []
      | some its =>
        its.filterMap (fun it =>
          if it.grade = 100 then
            some (letterOf c.1, it.sequence, weightGradeDecision ranges it.weight)
          else none))

/-- C5 (amended): for a strictly-ascending, non-overlapping weight-range
list, the weight decision returns the grade of the unique range containing
the weight (first match in ascending-min order); a weight contained in no
range — in particular any weight above the highest range's max — gets the
reject grade 0; and each pending (grade 100) slot of each decoded channel
receives exactly this decision. -/
theorem weight_sorting_unique_range :
    (∀ (ranges : List WeightRange) (w : Int) (r : WeightRange),
      ranges.Pairwise (fun a b => a.max_weight < b.min_weight) →
      r ∈ ranges → r.matches w = true →
      weightGradeDecision ranges w = r.grade) ∧
    (∀ (ranges : List WeightRange) (w : Int),
      (∀ r ∈ ranges, r.matches w = false) →
      weightGradeDecision ranges w = 0) ∧
    (∀ (enableWeight : Bool) (ranges : List WeightRange) (data : ChannelsData)
      (ch : String) (its : List SlotItem) (it : SlotItem),
      enableWeight = true → ranges ≠ [] →
      (ch, some its) ∈ data → it ∈ its → it.grade = 100 →
      (letterOf ch, it.sequence, weightGradeDecision ranges it.weight) ∈
        processWeightSorting enableWeight ranges data) := by
  refine ⟨?_, ?_, ?_⟩
  · intro ranges w r hpair hmem hmatch
    induction ranges with
    | nil => simp at hmem
    | cons a l ih =>
      rcases List.pairwise_cons.mp hpair with ⟨ha, hl⟩
      by_cases hma : a.matches w = true
      · unfold weightGradeDecision
        simp only [List.find?, hma]
        rcases List.mem_cons.mp hmem with hr | hr
        · rw [hr]
        · exfalso
          have h1 : a.max_weight < r.min_weight := ha r hr
          have h2 : w ≤ a.max_weight ∧ a.min_weight ≤ w := by
            have := of_decide_eq_true hma
            exact ⟨this.2, this.1⟩
          have h3 : r.min_weight ≤ w := (of_decide_eq_true hmatch).1
          omega
      · rcases List.mem_cons.mp hmem with hr | hr
        · exact absurd (hr ▸ hmatch) hma
        · have hma' : a.matches w = false := by
            cases hv : a.matches w
            · rfl
            · exact absurd hv hma
          have := ih hl hr
          unfold weightGradeDecision at this ⊢
          simpa only [List.find?, hma'] using this
  · intro ranges w hnone
    unfold weightGradeDecision
    rw [List.find?_eq_none.mpr (fun r hr => by simp [hnone r hr])]
  · intro enableWeight ranges data ch its it hen hne hchan hit hgrade
    unfold processWeightSorting
    rw [hen]
    have hre : ranges.isEmpty = false := by
      cases ranges with
      | nil => exact absurd rfl hne
      | cons a l => rfl
    rw [hre]
    show (letterOf ch, it.sequence, weightGradeDecision ranges it.weight) ∈
      data.flatMap (fun c =>
        match c.2 with
        | none => []
        | some its =>
          its.filterMap (fun it =>
            if it.grade = 100 then
              some (letterOf c.1, it.sequence, weightGradeDecision ranges it.weight)
            else none))
    rw [List.mem_flatMap]
    refine ⟨(ch, some its), hchan, ?_⟩
    show (letterOf ch, it.sequence, weightGradeDecision ranges it.weight) ∈
      its.filterMap (fun it =>
        if it.grade = 100 then
          some (letterOf ch, it.sequence, weightGradeDecision ranges it.weight)
        else none)
    rw [List.mem_filterMap]
    exact ⟨it, hit, by rw [if_pos hgrade]⟩

/-- C5 witness: ranges [0,10]→1, [11,20]→2 are strictly ascending; weight 15
lies in the second range and gets grade 2; weight 25 matches no range and
gets grade 0; the pending slot of channel_A receives the decision. -/
theorem weight_sorting_unique_range_witness :
    weightGradeDecision [⟨0, 10, 1⟩, ⟨11, 20, 2⟩] 15 = 2 ∧
    weightGradeDecision [⟨0, 10, 1⟩, ⟨11, 20, 2⟩] 25 = 0 ∧
    (letterOf "channel_A", 1, weightGradeDecision [⟨0, 10, 1⟩, ⟨11, 20, 2⟩] 15) ∈
      processWeightSorting true [⟨0, 10, 1⟩, ⟨11, 20, 2⟩]
        [("channel_A", some [⟨1, 15, 100, 14⟩])] := by
  refine ⟨?_, ?_, ?_⟩
  · exact weight_sorting_unique_range.1 [⟨0, 10, 1⟩, ⟨11, 20, 2⟩] 15 ⟨11, 20, 2⟩
      (by decide) (by decide) (by decide)
  · exact weight_sorting_unique_range.2.1 [⟨0, 10, 1⟩, ⟨11, 20, 2⟩] 25 (by decide)
  · exact weight_sorting_unique_range.2.2 true [⟨0, 10, 1⟩, ⟨11, 20, 2⟩]
      [("channel_A", some [⟨1, 15, 100, 14⟩])] "channel_A" [⟨1, 15, 100, 14⟩]
      ⟨1, 15, 100, 14⟩ rfl (by decide) (by decide) (by decide) (by decide)

/-- C5 counterexample to the claim as stated: with the strictly-ascending,
non-overlapping ranges [0,10]→1 and [11,20]→2, the weight 25 lies above the
highest range's max 20, yet the decision is the reject grade 0 and not the
last range's grade 2 — a weight above the highest max matches no range. -/
theorem weight_above_highest_max_counterexample :
    ([(⟨0, 10, 1⟩ : WeightRange), ⟨11, 20, 2⟩].Pairwise
      (fun a b => a.max_weight < b.min_weight)) ∧
    (20 : Int) < 25 ∧
    weightGradeDecision [⟨0, 10, 1⟩, ⟨11, 20, 2⟩] 25 = 0 ∧
    (0 : Int) ≠ 2 := by
  refine ⟨?_, by decide, by decide, by decide⟩
  decide

/-- An observer callback registered on the Counter.  The Option result
models the Python call outcome: `some ()` a normal return, `none` a raised
exception. -/
abbrev Observer := Int → Int → Option Unit

/-- Counter state (src/core/sorting_task_manager.py:56-109): current value
and registered observer list. -/
structure Counter where
  value : Int
  observers : List Observer

/-- Counter._notify_observers: call every observer in registration order
with (old_value, new_value); a raised exception is caught inside the loop
body (printed) and the iteration continues with the next observer. -/
def notifyObservers : List Observer → Int → Int → List (Option Unit)
  | [], _, _ => []
  | cb :: rest, oldValue, newValue =>
    match cb oldValue newValue with
    | some u => some u :: notifyObservers rest oldValue newValue
    | none => none :: notifyObservers rest oldValue newValue

/-- Counter.set: store the new value, notify observers with
(old_value, value), return the old value.  The observer call results are
returned alongside for inspection. -/
def Counter.set (c : Counter) (v : Int) :
    Counter × Int × List (Option Unit) :=
  let oldValue := c.value
  (⟨v, c.observers⟩, oldValue, notifyObservers c.observers oldValue v)

/-- Counter.tick: add the increment, notify observers with
(old_value, new value), return the new value. -/
def Counter.tick (c : Counter) (inc : Int) :
    Counter × Int × List (Option Unit) :=
  let oldValue := c.value
  (⟨c.value + inc, c.observers⟩, c.value + inc,
    notifyObservers c.observers oldValue (c.value + inc))

/-- Counter.reset: set the value to 0. -/
def Counter.reset (c : Counter) : Counter × Int × List (Option Unit) :=
  c.set 0

/-- C10: every Counter mutation stores the new value and invokes every
registered observer exactly once, in order, with the (old, new) pair — the
call results equal mapping the observers over that pair, so a raising
observer (result none) neither aborts the stored mutation nor suppresses
the remaining observers; set returns the previous value, tick returns the
updated value, and reset is set 0. -/
theorem counter_mutation_notifies_all :
    (∀ (c : Counter) (v : Int),
      (c.set v).1.value = v ∧
      (c.set v).1.observers = c.observers ∧
      (c.set v).2.1 = c.value ∧
      (c.set v).2.2 = c.observers.map (fun cb => cb c.value v)) ∧
    (∀ (c : Counter) (inc : Int),
      (c.tick inc).1.value = c.value + inc ∧
      (c.tick inc).1.observers = c.observers ∧
      (c.tick inc).2.1 = c.value + inc ∧
      (c.tick inc).2.2 = c.observers.map (fun cb => cb c.value (c.value + inc))) ∧
    (∀ c : Counter, c.reset = c.set 0) := by
  have hmap : ∀ (obs : List Observer) (a b : Int),
      notifyObservers obs a b = obs.map (fun cb => cb a b) := by
    intro obs a b
    induction obs with
    | nil => rfl
    | cons cb rest ih =>
      show (match cb a b with
            | some u => some u :: notifyObservers rest a b
            | none => none :: notifyObservers rest a b) = cb a b :: rest.map _
      cases cb a b <;> simp [ih]
  refine ⟨fun c v => ⟨rfl, rfl, rfl, hmap c.observers c.value v⟩,
    fun c inc => ⟨rfl, rfl, rfl, hmap c.observers c.value (c.value + inc)⟩,
    fun c => rfl⟩

end STM

namespace PLC

/-- PLCCommunicator._convert_doc_bit_to_actual_bit: documented bits 0-7
address wire bits 8-15 and documented bits 8-15 address wire bits 0-7
(byte-swapped register layout). -/
def convertDocBitToActualBit (docBit : Nat) : Nat :=
  if docBit ≤ 7 then docBit + 8 else docBit - 8

/-- The CONTROL_BITS map, every entry built through the bit transform as in
PLCCommunicator.__init__. -/
def CONTROL_BITS : List (String × Nat) :=
  [("remote_control", convertDocBitToActualBit 0),
   ("remote_start", convertDocBitToActualBit 1),
   ("remote_stop", convertDocBitToActualBit 2),
   ("remote_reset", convertDocBitToActualBit 3),
   ("remote_clear", convertDocBitToActualBit 4)]

/-- The STATUS_BITS map, every entry built through the bit transform. -/
def STATUS_BITS : List (String × Nat) :=
  [("system_ready", convertDocBitToActualBit 0),
   ("system_running", convertDocBitToActualBit 1),
   ("system_stopped", convertDocBitToActualBit 2),
   ("system_alarm", convertDocBitToActualBit 3),
   ("photo_mapping", convertDocBitToActualBit 4)]

/-- C3: the bit-index inversion maps every documented bit b in [0,7] to wire
bit b+8 and every b in [8,15] to wire bit b−8; documented bit 2
(remote_stop) maps to physical bit 10; and both bit maps consist exactly of
the transform applied to documented bits 0 through 4. -/
theorem bit_inversion_transform :
    (∀ b : Nat, b ≤ 7 → convertDocBitToActualBit b = b + 8) ∧
    (∀ b : Nat, 8 ≤ b → b ≤ 15 → convertDocBitToActualBit b = b - 8) ∧
    convertDocBitToActualBit 2 = 10 ∧
    CONTROL_BITS.lookup "remote_stop" = some 10 ∧
    CONTROL_BITS.map Prod.snd = (List.range 5).map convertDocBitToActualBit ∧
    STATUS_BITS.map Prod.snd = (List.range 5).map convertDocBitToActualBit := by
  refine ⟨?_, ?_, by decide, by decide, by decide, by decide⟩
  · intro b hb
    unfold convertDocBitToActualBit
    rw [if_pos hb]
  · intro b hb1 hb2
    unfold convertDocBitToActualBit
    rw [if_neg (by omega)]

/-- C3 witness: documented bit 2 maps to 10 via the low-byte rule, wire bit
10 maps back to documented position 2 via the high-byte rule. -/
theorem bit_inversion_transform_witness :
    convertDocBitToActualBit 2 = 2 + 8 ∧ convertDocBitToActualBit 10 = 10 - 8 :=
  ⟨bit_inversion_transform.1 2 (by decide),
   bit_inversion_transform.2.1 10 (by decide) (by decide)⟩

/-- Signed interpretation of a 32-bit register pair value (pymodbus
decode_32bit_int with big-endian byte and word order). -/
def toSigned32 (v : Nat) : Int :=
  if v < 2 ^ 31 then (v : Int) else (v : Int) - 2 ^ 32

/-- decode_32bit_int over two big-endian 16-bit registers. -/
def decode32 (hi lo : Nat) : Int := toSigned32 (hi * 65536 + lo)

/-- The channel slot-block start registers (channel_a_start .. d_start). -/
def channelStarts : List (String × Nat) :=
  [("A", 12), ("B", 42), ("C", 72), ("D", 102)]

/-- Python min over a non-empty value collection. -/
def natListMin : List Nat → Nat
  | [] => 0
  | x :: xs => xs.foldl Nat.min x

/-- Python max over a non-empty value collection. -/
def natListMax : List Nat → Nat
  | [] => 0
  | x :: xs => xs.foldl Nat.max x

/-- min(channel_starts.values()). -/
def minAddress : Nat := natListMin (channelStarts.map Prod.snd)

/-- max(channel_starts.values()) + 10*3. -/
def maxAddress : Nat := natListMax (channelStarts.map Prod.snd) + 10 * 3

/-- The single bulk read length max_address - min_address. -/
def totalRegisters : Nat := maxAddress - minAddress

/-- The 10 slot dicts decoded from one channel's 30 registers: sequence,
32-bit signed weight from two registers, grade word, and the grade field's
register address.  Callers guarantee 30 registers, so the out-of-range
default of getD is never taken. -/
def decodeChannel (start : Nat) (regs : List Nat) : List STM.SlotItem :=
  (List.range 10).map (fun i =>
    ⟨i + 1,
     decode32 (regs.getD (i * 3) 0) (regs.getD (i * 3 + 1) 0),
     (regs.getD (i * 3 + 2) 0 : Int),
     start + i * 3 + 2⟩)

/-- PLCCommunicator.get_all_channels_grades_data
(src/core/plc_communicator.py:367-431): one holding-register read over the
span covering all four channel blocks; on a falsy read result (None or
empty) every channel maps to None; otherwise each channel's 30-register
slice is decoded, a short slice yielding None for that channel.  The
holding-register read is abstracted as the function `read`; the second
component logs every read request issued as (address, count). -/
def getAllChannelsGradesData (read : Nat → Nat → Option (List Nat)) :
    STM.ChannelsData × List (Nat × Nat) :=
  let requests := [(minAddress, totalRegisters)]
  match read minAddress totalRegisters with
  | none => (channelStarts.map (fun c => ("channel_" ++ c.1, none)), requests)
  | some allRegisters =>
    if allRegisters.isEmpty then
      (channelStarts.map (fun c => ("channel_" ++ c.1, none)), requests)
    else
      (channelStarts.map (fun c =>
        let channelRegisters := (allRegisters.drop (c.2 - minAddress)).take 30
        if channelRegisters.length < 30 then ("channel_" ++ c.1, none)
        else ("channel_" ++ c.1, some (decodeChannel c.2 channelRegisters))),
       requests)

/-- C9: the bulk snapshot read issues exactly one holding-register read,
at the minimal contiguous span over all four channel slot blocks —
registers 12 through 131, i.e. 120 registers, with the span's endpoints
attained by actual blocks — and on a failed (None or empty) read every
channel of the result is absent, so no partial data is ever observable
from a single failed read. -/
theorem bulk_read_single_span_no_partial :
    (∀ read : Nat → Nat → Option (List Nat),
      (getAllChannelsGradesData read).2 = [(12, 120)]) ∧
    (minAddress = 12 ∧ totalRegisters = 120 ∧
      (∀ c ∈ channelStarts, minAddress ≤ c.2 ∧
        c.2 + 30 ≤ minAddress + totalRegisters) ∧
      (∃ c ∈ channelStarts, c.2 = minAddress) ∧
      (∃ c ∈ channelStarts, c.2 + 30 = minAddress + totalRegisters)) ∧
    (∀ read : Nat → Nat → Option (List Nat),
      read 12 120 = none ∨ read 12 120 = some [] →
      ∀ p ∈ (getAllChannelsGradesData read).1, p.2 = none) := by
  refine ⟨?_, by decide, ?_⟩
  · intro read
    unfold getAllChannelsGradesData
    cases read minAddress totalRegisters with
    | none => rfl
    | some l =>
      cases hl : l.isEmpty
      · simp only [hl]
        rfl
      · simp only [hl]
        rfl
  · intro read hfail p hp
    have h12 : minAddress = 12 := by decide
    have h120 : totalRegisters = 120 := by decide
    unfold getAllChannelsGradesData at hp
    rw [h12, h120] at hp
    rcases hfail with hfail | hfail
    · rw [hfail] at hp
      simp only [List.mem_map] at hp
      obtain ⟨c, _, hc⟩ := hp
      rw [← hc]
    · rw [hfail] at hp
      simp only [List.isEmpty_nil, if_true] at hp
      simp only [List.mem_map] at hp
      obtain ⟨c, _, hc⟩ := hp
      rw [← hc]

/-- C9 witness: with a failing read every channel of the result is absent. -/
theorem bulk_read_single_span_no_partial_witness :
    ∀ p ∈ (getAllChannelsGradesData (fun _ _ => none)).1, p.2 = none :=
  bulk_read_single_span_no_partial.2.2 (fun _ _ => none) (Or.inl rfl)

end PLC

namespace CTM

/-- CustomSortingTask (src/core/sorting_task_manager.py:25-53): target
count, lane to force, target channel, processed flag and outcome.  The
datetime fields (created_time, executed_at) carry no logic and are
omitted. -/
structure Task where
  target_count : Int
  sort_channel : Int
  target_channel : String
  executed : Bool
  success : Option Bool
  deriving Repr, DecidableEq

/-- CustomSortingTask.mark_executed. -/
def Task.markExecuted (t : Task) (s : Bool) : Task :=
  { t with executed := true, success := some s }

/-- The truthiness test channel_key in data and data[channel_key]: the first
entry under the key, provided it is a non-empty slot list. -/
def lookupChannel : STM.ChannelsData → String → Option (List STM.SlotItem)
  | [], _ => none
  | c :: rest, key =>
    if c.1 = key then
      match c.2 with
      | some its => if its.isEmpty then none else some its
      | none => none
    else lookupChannel rest key

/-- Set the grade of the first sequence-1 item of a slot list (the item the
fire branch of _process_custom_sorting_cached mutates). -/
def setSeq1Grade (g : Int) : List STM.SlotItem → List STM.SlotItem
  | [] => []
  | it :: rest =>
    if it.sequence = 1 then ⟨it.sequence, it.weight, g, it.address⟩ :: rest
    else it :: setSeq1Grade g rest

/-- Apply setSeq1Grade to the slot list stored under the key (first
occurrence). -/
def updateSeq1 : STM.ChannelsData → String → Int → STM.ChannelsData
  | [], _, _ => []
  | c :: rest, key, g =>
    if c.1 = key then (c.1, c.2.map (fun its => setSeq1Grade g its)) :: rest
    else c :: updateSeq1 rest key g

/-- Result of one _process_custom_sorting_cached pass: the active list after
removal of terminal tasks, the removed (marked) tasks, the updated cache and
the data_modified flag. -/
structure CustomResult where
  remaining : List Task
  removed : List Task
  data : STM.ChannelsData
  modified : Bool
  deriving Repr, DecidableEq

/-- The task loop of _process_custom_sorting_cached
(src/core/CachedSortingTaskManager.py:238-298): for each unprocessed task in
order — when the count equals the target and the target channel's first
sequence-1 item is PENDING (grade 100), set that item's grade to the task's
sort_channel, mark the task Succeeded and remove it; when the count exceeds
the target, mark the task Missed and remove it; otherwise the task stays
active.  Already-executed tasks are skipped and stay. -/
def processCustomTasks (count : Int) : List Task → STM.ChannelsData → CustomResult
  | [], data => ⟨[], [], data, false⟩
  | task :: rest, data =>
    if task.executed then
      let r := processCustomTasks count rest data
      ⟨task :: r.remaining, r.removed, r.data, r.modified⟩
    else if count = task.target_count then
      match lookupChannel data ("channel_" ++ task.target_channel) with
      | some its =>
        match its.find? (fun it => it.sequence == 1) with
        | some it =>
          if it.grade = 100 then
            let r := processCustomTasks count rest
              (updateSeq1 data ("channel_" ++ task.target_channel) task.sort_channel)
            ⟨r.remaining, task.markExecuted true :: r.removed, r.data, true⟩
          else
            let r := processCustomTasks count rest data
            ⟨task :: r.remaining, r.removed, r.data, r.modified⟩
        | none =>
          let r := processCustomTasks count rest data
          ⟨task :: r.remaining, r.removed, r.data, r.modified⟩
      | none =>
        let r := processCustomTasks count rest data
        ⟨task :: r.remaining, r.removed, r.data, r.modified⟩
    else if task.target_count < count then
      let r := processCustomTasks count rest data
      ⟨r.remaining, task.markExecuted false :: r.removed, r.data, r.modified⟩
    else
      let r := processCustomTasks count rest data
      ⟨task :: r.remaining, r.removed, r.data, r.modified⟩

/-- _process_custom_sorting_cached with its enable/cache guard. -/
def processCustomSortingCached (enableCustom : Bool) (count : Int)
    (tasks : List Task) (data : STM.ChannelsData) : CustomResult :=
  if !enableCustom || data.isEmpty then ⟨tasks, [], data, false⟩
  else processCustomTasks count tasks data

/-- The item loop of _process_weight_sorting_cached over one channel's slot
list: every PENDING (grade 100) item is assigned the data-manager kick
channel for its weight, or grade 0 when the data manager yields none; either
way the data_modified flag is set.  The data manager's internal state
(alignment queues) is threaded through as ks. -/
def processItemsWeight {κ : Type} (kick : κ → String → Int → Int → Option Int × κ)
    (letter : String) (count : Int) :
    κ → List STM.SlotItem → List STM.SlotItem × Bool × κ
  | ks, [] => ([], false, ks)
  | ks, it :: rest =>
    if it.grade = 100 then
      match kick ks letter it.weight count with
      | (some k, ks') =>
        let r := processItemsWeight kick letter count ks' rest
        (⟨it.sequence, it.weight, k, it.address⟩ :: r.1, true, r.2.2)
      | (none, ks') =>
        let r := processItemsWeight kick letter count ks' rest
        (⟨it.sequence, it.weight, 0, it.address⟩ :: r.1, true, r.2.2)
    else
      let r := processItemsWeight kick letter count ks rest
      (it :: r.1, r.2.1, r.2.2)

/-- The channel loop of _process_weight_sorting_cached: channels with falsy
(absent or empty) data are skipped. -/
def processChannelsWeight {κ : Type} (kick : κ → String → Int → Int → Option Int × κ)
    (count : Int) : κ → STM.ChannelsData → STM.ChannelsData × Bool × κ
  | ks, [] => ([], false, ks)
  | ks, c :: rest =>
    match c.2 with
    | none =>
      let r := processChannelsWeight kick count ks rest
      (c :: r.1, r.2.1, r.2.2)
    | some its =>
      if its.isEmpty then
        let r := processChannelsWeight kick count ks rest
        (c :: r.1, r.2.1, r.2.2)
      else
        let ri := processItemsWeight kick (STM.letterOf c.1).toUpper count ks its
        let r := processChannelsWeight kick count ri.2.2 rest
        ((c.1, some ri.1) :: r.1, ri.2.1 || r.2.1, r.2.2)

/-- _process_weight_sorting_cached (src/core/CachedSortingTaskManager.py:
142-236) with its guard: disabled sorting, an empty range table or an empty
cache dict are no-ops. -/
def processWeightSortingCached {κ : Type} (enableWeight : Bool)
    (ranges : List STM.WeightRange) (kick : κ → String → Int → Int → Option Int × κ)
    (count : Int) (ks : κ) (data : STM.ChannelsData) :
    STM.ChannelsData × Bool × κ :=
  if !enableWeight || ranges.isEmpty || data.isEmpty then (data, false, ks)
  else processChannelsWeight kick count ks data

/-- Modelled from the spec: PLCCommunicator.batch_write_from_cached_data is
called by CachedSortingTaskManager._monitor_loop_cached but is not
implemented in the repository source (the manager's docstring only requires
the communicator to support it).  The spec's writeSnapshot contract —
"writes back changed grade fields; the number of network round trips must
not scale linearly with the number of mutated slots (batch semantics),
collapsing what would otherwise be N separate writes into O(1)" — is
modelled as a single bulk write request; writeOk abstracts the network
outcome, and the second component counts the underlying write requests
issued. -/
def batchWriteFromCachedData (writeOk : Bool) (data : STM.ChannelsData) :
    Bool × Nat :=
  (writeOk, 1)

/-- Result of one _monitor_loop_cached iteration (data path): the task lists
after the custom pass, the cache contents, how many
batch_write_from_cached_data calls were made and how many underlying network
write requests those calls issued. -/
structure CycleResult (κ : Type) where
  tasks : List Task
  removed : List Task
  data : STM.ChannelsData
  batchCalls : Nat
  netWrites : Nat
  kstate : κ

/-- One iteration of _monitor_loop_cached
(src/core/CachedSortingTaskManager.py:319-394) after a successful read:
custom sorting first (when enabled), then weight sorting (when enabled),
then one batch_write_from_cached_data call only if data_modified. -/
def monitorCycleCached {κ : Type} (enableCustom enableWeight : Bool)
    (ranges : List STM.WeightRange) (kick : κ → String → Int → Int → Option Int × κ)
    (count : Int) (ks : κ) (tasks : List Task) (data : STM.ChannelsData)
    (writeOk : Bool) : CycleResult κ :=
  if data.isEmpty then ⟨tasks, [], data, 0, 0, ks⟩
  else
    let rc := if enableCustom then processCustomSortingCached enableCustom count tasks data
              else ⟨tasks, [], data, false⟩
    let rw := if enableWeight then
                processWeightSortingCached enableWeight ranges kick count ks rc.data
              else (rc.data, false, ks)
    let dataModified := (false || rc.modified) || rw.2.1
    if dataModified then
      let bw := batchWriteFromCachedData writeOk rw.1
      ⟨rc.remaining, rc.removed, rw.1, 1, bw.2, rw.2.2⟩
    else
      ⟨rc.remaining, rc.removed, rw.1, 0, 0, rw.2.2⟩

/-- Number of PENDING (grade 100) items in a slot list. -/
def pendingItems (its : List STM.SlotItem) : Nat :=
  (its.filter (fun it => it.grade == 100)).length

/-- Number of PENDING items in one channel's optional slot list. -/
def pendingChan : Option (List STM.SlotItem) → Nat
  | none => 0
  | some its => pendingItems its

/-- Number of PENDING items across the cache. -/
def pendingCount (data : STM.ChannelsData) : Nat :=
  (data.map (fun c => pendingChan c.2)).sum

/-- Blank out the grade of every sequence-1 item, keeping everything else:
two caches agree on this scrub exactly when they differ at most in
sequence-1 grades. -/
def scrubSeq1 (it : STM.SlotItem) : STM.SlotItem :=
  if it.sequence = 1 then ⟨it.sequence, it.weight, 0, it.address⟩ else it

/-- The cache with every sequence-1 grade blanked. -/
def eraseSeq1Grades (data : STM.ChannelsData) : STM.ChannelsData :=
  data.map (fun c => (c.1, c.2.map (fun its => its.map scrubSeq1)))

/-- Every task left active by the custom pass was already in the input
list (tasks are never created or altered in place in the active list). -/
theorem processCustomTasks_remaining_mem (count : Int) (tasks : List Task)
    (data : STM.ChannelsData) :
    ∀ t ∈ (processCustomTasks count tasks data).remaining, t ∈ tasks := by
  induction tasks generalizing data with
  | nil => intro t ht; simp [processCustomTasks] at ht
  | cons task rest ih =>
    intro t ht
    by_cases h1 : task.executed
    · simp only [processCustomTasks, if_pos h1] at ht
      rcases List.mem_cons.mp ht with h | h
      · exact h ▸ List.mem_cons_self task rest
      · exact List.mem_cons_of_mem _ (ih data t h)
    · by_cases h2 : count = task.target_count
      · cases hc : lookupChannel data ("channel_" ++ task.target_channel) with
        | none =>
          simp only [processCustomTasks, if_neg h1, if_pos h2, hc] at ht
          rcases List.mem_cons.mp ht with h | h
          · exact h ▸ List.mem_cons_self task rest
          · exact List.mem_cons_of_mem _ (ih data t h)
        | some its =>
          cases hf : its.find? (fun it => it.sequence == 1) with
          | none =>
            simp only [processCustomTasks, if_neg h1, if_pos h2, hc, hf] at ht
            rcases List.mem_cons.mp ht with h | h
            · exact h ▸ List.mem_cons_self task rest
            · exact List.mem_cons_of_mem _ (ih data t h)
          | some it =>
            by_cases hg : it.grade = 100
            · simp only [processCustomTasks, if_neg h1, if_pos h2, hc, hf,
                if_pos hg] at ht
              exact List.mem_cons_of_mem _ (ih _ t ht)
            · simp only [processCustomTasks, if_neg h1, if_pos h2, hc, hf,
                if_neg hg] at ht
              rcases List.mem_cons.mp ht with h | h
              · exact h ▸ List.mem_cons_self task rest
              · exact List.mem_cons_of_mem _ (ih data t h)
      · by_cases h3 : task.target_count < count
        · simp only [processCustomTasks, if_neg h1, if_neg h2, if_pos h3] at ht
          exact List.mem_cons_of_mem _ (ih data t ht)
        · simp only [processCustomTasks, if_neg h1, if_neg h2, if_neg h3] at ht
          rcases List.mem_cons.mp ht with h | h
          · exact h ▸ List.mem_cons_self task rest
          · exact List.mem_cons_of_mem _ (ih data t h)

/-- Every task removed by the custom pass is marked executed with a
recorded outcome. -/
theorem processCustomTasks_removed_executed (count : Int) (tasks : List Task)
    (data : STM.ChannelsData) :
    ∀ t ∈ (processCustomTasks count tasks data).removed,
      t.executed = true ∧ t.success ≠ none := by
  induction tasks generalizing data with
  | nil => intro t ht; simp [processCustomTasks] at ht
  | cons task rest ih =>
    intro t ht
    by_cases h1 : task.executed
    · simp only [processCustomTasks, if_pos h1] at ht
      exact ih data t ht
    · by_cases h2 : count = task.target_count
      · cases hc : lookupChannel data ("channel_" ++ task.target_channel) with
        | none =>
          simp only [processCustomTasks, if_neg h1, if_pos h2, hc] at ht
          exact ih data t ht
        | some its =>
          cases hf : its.find? (fun it => it.sequence == 1) with
          | none =>
            simp only [processCustomTasks, if_neg h1, if_pos h2, hc, hf] at ht
            exact ih data t ht
          | some it =>
            by_cases hg : it.grade = 100
            · simp only [processCustomTasks, if_neg h1, if_pos h2, hc, hf,
                if_pos hg] at ht
              rcases List.mem_cons.mp ht with h | h
              · subst h
                exact ⟨rfl, by simp [Task.markExecuted]⟩
              · exact ih _ t h
            · simp only [processCustomTasks, if_neg h1, if_pos h2, hc, hf,
                if_neg hg] at ht
              exact ih data t ht
      · by_cases h3 : task.target_count < count
        · simp only [processCustomTasks, if_neg h1, if_neg h2, if_pos h3] at ht
          rcases List.mem_cons.mp ht with h | h
          · subst h
            exact ⟨rfl, by simp [Task.markExecuted]⟩
          · exact ih data t h
        · simp only [processCustomTasks, if_neg h1, if_neg h2, if_neg h3] at ht
          exact ih data t ht

/-- Scrubbing sequence-1 grades absorbs a sequence-1 grade update. -/
theorem map_scrubSeq1_setSeq1Grade (g : Int) (its : List STM.SlotItem) :
    (setSeq1Grade g its).map scrubSeq1 = its.map scrubSeq1 := by
  induction its with
  | nil => rfl
  | cons it rest ih =>
    by_cases h : it.sequence = 1
    · simp only [setSeq1Grade, if_pos h, List.map_cons, scrubSeq1]
    · simp only [setSeq1Grade, if_neg h, List.map_cons, ih]

/-- updateSeq1 only touches sequence-1 grades. -/
theorem eraseSeq1Grades_updateSeq1 (data : STM.ChannelsData) (key : String)
    (g : Int) : eraseSeq1Grades (updateSeq1 data key g) = eraseSeq1Grades data := by
  induction data with
  | nil => rfl
  | cons c rest ih =>
    by_cases h : c.1 = key
    · have hopt : Option.map (fun its => List.map scrubSeq1 its)
          (Option.map (fun its => setSeq1Grade g its) c.2) =
          Option.map (fun its => List.map scrubSeq1 its) c.2 := by
        cases c.2 with
        | none => rfl
        | some its =>
          show some ((setSeq1Grade g its).map scrubSeq1) = some (its.map scrubSeq1)
          exact congrArg some (map_scrubSeq1_setSeq1Grade g its)
      simp only [updateSeq1, if_pos h, eraseSeq1Grades, List.map_cons]
      rw [hopt]
    · simp only [updateSeq1, if_neg h, eraseSeq1Grades, List.map_cons]
      have := ih
      simp only [eraseSeq1Grades] at this
      rw [this]

/-- The custom pass only ever modifies sequence-1 grades of the cache. -/
theorem processCustomTasks_erase (count : Int) (tasks : List Task)
    (data : STM.ChannelsData) :
    eraseSeq1Grades (processCustomTasks count tasks data).data =
      eraseSeq1Grades data := by
  induction tasks generalizing data with
  | nil => rfl
  | cons task rest ih =>
    by_cases h1 : task.executed
    · simp only [processCustomTasks, if_pos h1]
      exact ih data
    · by_cases h2 : count = task.target_count
      · cases hc : lookupChannel data ("channel_" ++ task.target_channel) with
        | none =>
          simp only [processCustomTasks, if_neg h1, if_pos h2, hc]
          exact ih data
        | some its =>
          cases hf : its.find? (fun it => it.sequence == 1) with
          | none =>
            simp only [processCustomTasks, if_neg h1, if_pos h2, hc, hf]
            exact ih data
          | some it =>
            by_cases hg : it.grade = 100
            · simp only [processCustomTasks, if_neg h1, if_pos h2, hc, hf,
                if_pos hg]
              rw [ih, eraseSeq1Grades_updateSeq1]
            · simp only [processCustomTasks, if_neg h1, if_pos h2, hc, hf,
                if_neg hg]
              exact ih data
      · by_cases h3 : task.target_count < count
        · simp only [processCustomTasks, if_neg h1, if_neg h2, if_pos h3]
          exact ih data
        · simp only [processCustomTasks, if_neg h1, if_neg h2, if_neg h3]
          exact ih data

/-- Setting the first sequence-1 item's grade makes the first sequence-1
item carry exactly that grade. -/
theorem setSeq1Grade_find (g : Int) (its : List STM.SlotItem)
    (it : STM.SlotItem)
    (hf : its.find? (fun x => x.sequence == 1) = some it) :
    (setSeq1Grade g its).find? (fun x => x.sequence == 1) =
      some ⟨it.sequence, it.weight, g, it.address⟩ := by
  induction its with
  | nil => simp at hf
  | cons x rest ih =>
    by_cases h : x.sequence = 1
    · rw [List.find?_cons_of_pos _ (by simpa using h)] at hf
      cases hf
      simp only [setSeq1Grade, if_pos h]
      rw [List.find?_cons_of_pos _ (by simpa using h)]
    · rw [List.find?_cons_of_neg _ (by simpa using h)] at hf
      simp only [setSeq1Grade, if_neg h]
      rw [List.find?_cons_of_neg _ (by simpa using h)]
      exact ih hf

/-- A custom pass that reports no modification left the cache untouched. -/
theorem processCustomTasks_not_modified (count : Int) (tasks : List Task)
    (data : STM.ChannelsData)
    (h : (processCustomTasks count tasks data).modified = false) :
    (processCustomTasks count tasks data).data = data := by
  induction tasks generalizing data with
  | nil => rfl
  | cons task rest ih =>
    by_cases h1 : task.executed
    · simp only [processCustomTasks, if_pos h1] at h ⊢
      exact ih data h
    · by_cases h2 : count = task.target_count
      · cases hc : lookupChannel data ("channel_" ++ task.target_channel) with
        | none =>
          simp only [processCustomTasks, if_neg h1, if_pos h2, hc] at h ⊢
          exact ih data h
        | some its =>
          cases hf : its.find? (fun it => it.sequence == 1) with
          | none =>
            simp only [processCustomTasks, if_neg h1, if_pos h2, hc, hf] at h ⊢
            exact ih data h
          | some it =>
            by_cases hg : it.grade = 100
            · simp only [processCustomTasks, if_neg h1, if_pos h2, hc, hf,
                if_pos hg] at h
              exact absurd h (by simp)
            · simp only [processCustomTasks, if_neg h1, if_pos h2, hc, hf,
                if_neg hg] at h ⊢
              exact ih data h
      · by_cases h3 : task.target_count < count
        · simp only [processCustomTasks, if_neg h1, if_neg h2, if_pos h3] at h ⊢
          exact ih data h
        · simp only [processCustomTasks, if_neg h1, if_neg h2, if_neg h3] at h ⊢
          exact ih data h

/-- Writing a non-PENDING grade into the pending first sequence-1 item
strictly decreases the pending count of the slot list. -/
theorem setSeq1Grade_pending_lt (g : Int) (its : List STM.SlotItem)
    (it : STM.SlotItem) (hf : its.find? (fun x => x.sequence == 1) = some it)
    (hg : it.grade = 100) (hgne : g ≠ 100) :
    pendingItems (setSeq1Grade g its) < pendingItems its := by
  induction its with
  | nil => simp at hf
  | cons x rest ih =>
    by_cases h : x.sequence = 1
    · rw [List.find?_cons_of_pos _ (by simpa using h)] at hf
      have hx100 : x.grade = 100 := by
        have h' : x = it := by injection hf
        rw [h']; exact hg
      simp only [setSeq1Grade, if_pos h, pendingItems, List.filter_cons]
      have hx : (x.grade == 100) = true := by simpa using hx100
      have hgx : (((⟨x.sequence, x.weight, g, x.address⟩ : STM.SlotItem).grade
          == 100)) = false := by simpa using hgne
      rw [hx, hgx]
      simp
    · rw [List.find?_cons_of_neg _ (by simpa using h)] at hf
      simp only [setSeq1Grade, if_neg h, pendingItems, List.filter_cons]
      cases hxg : x.grade == 100
      · simpa [pendingItems] using ih hf
      · simpa [pendingItems] using ih hf

/-- Firing an override with a non-PENDING lane strictly decreases the
pending count of the cache. -/
theorem updateSeq1_pending_lt (data : STM.ChannelsData) (key : String)
    (g : Int) (its : List STM.SlotItem) (it : STM.SlotItem)
    (hc : lookupChannel data key = some its)
    (hf : its.find? (fun x => x.sequence == 1) = some it)
    (hg : it.grade = 100) (hgne : g ≠ 100) :
    pendingCount (updateSeq1 data key g) < pendingCount data := by
  induction data with
  | nil => simp [lookupChannel] at hc
  | cons c rest ih =>
    obtain ⟨k, v⟩ := c
    by_cases h : k = key
    · simp only [lookupChannel, if_pos h] at hc
      cases v with
      | none => exact Option.noConfusion hc
      | some its0 =>
        have hc' : (if its0.isEmpty then (none : Option (List STM.SlotItem))
            else some its0) = some its := hc
        by_cases he : its0.isEmpty
        · rw [if_pos he] at hc'
          exact Option.noConfusion hc'
        · rw [if_neg he] at hc'
          have heq : its0 = its := by injection hc'
          have hf0 : its0.find? (fun x => x.sequence == 1) = some it := by
            rw [heq]; exact hf
          have hlt := setSeq1Grade_pending_lt g its0 it hf0 hg hgne
          simp only [updateSeq1, if_pos h, pendingCount, List.map_cons,
            List.sum_cons, Option.map_some', pendingChan]
          omega
    · simp only [lookupChannel, if_neg h] at hc
      simp only [updateSeq1, if_neg h, pendingCount, List.map_cons,
        List.sum_cons]
      have := ih hc
      simp only [pendingCount] at this
      omega

/-- Overwriting a pending first sequence-1 item never increases the pending
count, whatever grade is written. -/
theorem setSeq1Grade_pending_le (g : Int) (its : List STM.SlotItem)
    (it : STM.SlotItem) (hf : its.find? (fun x => x.sequence == 1) = some it)
    (hg : it.grade = 100) :
    pendingItems (setSeq1Grade g its) ≤ pendingItems its := by
  induction its with
  | nil => simp at hf
  | cons x rest ih =>
    by_cases h : x.sequence = 1
    · rw [List.find?_cons_of_pos _ (by simpa using h)] at hf
      have hx100 : x.grade = 100 := by
        have h' : x = it := by injection hf
        rw [h']; exact hg
      simp only [setSeq1Grade, if_pos h, pendingItems, List.filter_cons]
      have hx : (x.grade == 100) = true := by simpa using hx100
      rw [hx]
      cases hgx : (((⟨x.sequence, x.weight, g, x.address⟩ : STM.SlotItem).grade
          == 100)) <;> simp
    · rw [List.find?_cons_of_neg _ (by simpa using h)] at hf
      simp only [setSeq1Grade, if_neg h, pendingItems, List.filter_cons]
      cases hxg : x.grade == 100
      · simpa [pendingItems] using ih hf
      · simpa [pendingItems] using ih hf

/-- Firing an override on a pending sequence-1 slot never increases the
pending count of the cache. -/
theorem updateSeq1_pending_le (data : STM.ChannelsData) (key : String)
    (g : Int) (its : List STM.SlotItem) (it : STM.SlotItem)
    (hc : lookupChannel data key = some its)
    (hf : its.find? (fun x => x.sequence == 1) = some it)
    (hg : it.grade = 100) :
    pendingCount (updateSeq1 data key g) ≤ pendingCount data := by
  induction data with
  | nil => simp [lookupChannel] at hc
  | cons c rest ih =>
    obtain ⟨k, v⟩ := c
    by_cases h : k = key
    · simp only [lookupChannel, if_pos h] at hc
      cases v with
      | none => exact Option.noConfusion hc
      | some its0 =>
        have hc' : (if its0.isEmpty then (none : Option (List STM.SlotItem))
            else some its0) = some its := hc
        by_cases he : its0.isEmpty
        · rw [if_pos he] at hc'
          exact Option.noConfusion hc'
        · rw [if_neg he] at hc'
          have heq : its0 = its := by injection hc'
          have hf0 : its0.find? (fun x => x.sequence == 1) = some it := by
            rw [heq]; exact hf
          have hle := setSeq1Grade_pending_le g its0 it hf0 hg
          simp only [updateSeq1, if_pos h, pendingCount, List.map_cons,
            List.sum_cons, Option.map_some', pendingChan]
          omega
    · simp only [lookupChannel, if_neg h] at hc
      simp only [updateSeq1, if_neg h, pendingCount, List.map_cons,
        List.sum_cons]
      have := ih hc
      simp only [pendingCount] at this
      omega

/-- The custom pass never increases the pending count. -/
theorem processCustomTasks_pending_le (count : Int) (tasks : List Task)
    (data : STM.ChannelsData) :
    pendingCount (processCustomTasks count tasks data).data ≤
      pendingCount data := by
  induction tasks generalizing data with
  | nil => exact le_refl _
  | cons task rest ih =>
    by_cases h1 : task.executed
    · simp only [processCustomTasks, if_pos h1]
      exact ih data
    · by_cases h2 : count = task.target_count
      · cases hc : lookupChannel data ("channel_" ++ task.target_channel) with
        | none =>
          simp only [processCustomTasks, if_neg h1, if_pos h2, hc]
          exact ih data
        | some its =>
          cases hf : its.find? (fun it => it.sequence == 1) with
          | none =>
            simp only [processCustomTasks, if_neg h1, if_pos h2, hc, hf]
            exact ih data
          | some it =>
            by_cases hg : it.grade = 100
            · simp only [processCustomTasks, if_neg h1, if_pos h2, hc, hf,
                if_pos hg]
              exact le_trans (ih _)
                (updateSeq1_pending_le data _ task.sort_channel its it hc hf hg)
            · simp only [processCustomTasks, if_neg h1, if_pos h2, hc, hf,
                if_neg hg]
              exact ih data
      · by_cases h3 : task.target_count < count
        · simp only [processCustomTasks, if_neg h1, if_neg h2, if_pos h3]
          exact ih data
        · simp only [processCustomTasks, if_neg h1, if_neg h2, if_neg h3]
          exact ih data

/-- A custom pass that modified the cache strictly decreased the pending
count, provided no task's lane is the PENDING sentinel 100. -/
theorem processCustomTasks_modified_lt (count : Int) (tasks : List Task)
    (data : STM.ChannelsData)
    (hsl : ∀ t ∈ tasks, t.sort_channel ≠ 100)
    (h : (processCustomTasks count tasks data).modified = true) :
    pendingCount (processCustomTasks count tasks data).data <
      pendingCount data := by
  induction tasks generalizing data with
  | nil => simp [processCustomTasks] at h
  | cons task rest ih =>
    have hslr : ∀ t ∈ rest, t.sort_channel ≠ 100 :=
      fun t ht => hsl t (List.mem_cons_of_mem _ ht)
    by_cases h1 : task.executed
    · simp only [processCustomTasks, if_pos h1] at h ⊢
      exact ih data hslr h
    · by_cases h2 : count = task.target_count
      · cases hc : lookupChannel data ("channel_" ++ task.target_channel) with
        | none =>
          simp only [processCustomTasks, if_neg h1, if_pos h2, hc] at h ⊢
          exact ih data hslr h
        | some its =>
          cases hf : its.find? (fun it => it.sequence == 1) with
          | none =>
            simp only [processCustomTasks, if_neg h1, if_pos h2, hc, hf] at h ⊢
            exact ih data hslr h
          | some it =>
            by_cases hg : it.grade = 100
            · simp only [processCustomTasks, if_neg h1, if_pos h2, hc, hf,
                if_pos hg]
              exact lt_of_le_of_lt (processCustomTasks_pending_le count rest _)
                (updateSeq1_pending_lt data _ task.sort_channel its it hc hf hg
                  (hsl task (List.mem_cons_self _ _)))
            · simp only [processCustomTasks, if_neg h1, if_pos h2, hc, hf,
                if_neg hg] at h ⊢
              exact ih data hslr h
      · by_cases h3 : task.target_count < count
        · simp only [processCustomTasks, if_neg h1, if_neg h2, if_pos h3] at h ⊢
          exact ih data hslr h
        · simp only [processCustomTasks, if_neg h1, if_neg h2, if_neg h3] at h ⊢
          exact ih data hslr h

/-- An item pass that reports no modification left the slot list
untouched. -/
theorem processItemsWeight_not_modified {κ : Type}
    (kick : κ → String → Int → Int → Option Int × κ) (letter : String)
    (count : Int) (ks : κ) (its : List STM.SlotItem)
    (h : (processItemsWeight kick letter count ks its).2.1 = false) :
    (processItemsWeight kick letter count ks its).1 = its := by
  induction its generalizing ks with
  | nil => rfl
  | cons it rest ih =>
    by_cases hg : it.grade = 100
    · cases hk : kick ks letter it.weight count with
      | mk o ks' =>
        cases o with
        | some k =>
          simp only [processItemsWeight, if_pos hg, hk] at h
          exact Bool.noConfusion h
        | none =>
          simp only [processItemsWeight, if_pos hg, hk] at h
          exact Bool.noConfusion h
    · simp only [processItemsWeight, if_neg hg] at h ⊢
      rw [ih ks h]

/-- The item pass never increases the pending count of a slot list. -/
theorem processItemsWeight_pending_le {κ : Type}
    (kick : κ → String → Int → Int → Option Int × κ) (letter : String)
    (count : Int) (ks : κ) (its : List STM.SlotItem) :
    pendingItems (processItemsWeight kick letter count ks its).1 ≤
      pendingItems its := by
  induction its generalizing ks with
  | nil => exact le_refl _
  | cons it rest ih =>
    by_cases hg : it.grade = 100
    · cases hk : kick ks letter it.weight count with
      | mk o ks' =>
        cases o with
        | some k =>
          simp only [processItemsWeight, if_pos hg, hk, pendingItems,
            List.filter_cons]
          have h1 : (it.grade == 100) = true := by simpa using hg
          rw [h1]
          have := ih ks'
          simp only [pendingItems] at this
          cases hgk : (((⟨it.sequence, it.weight, k, it.address⟩ :
              STM.SlotItem).grade == 100)) <;> simp <;> omega
        | none =>
          simp only [processItemsWeight, if_pos hg, hk, pendingItems,
            List.filter_cons]
          have h1 : (it.grade == 100) = true := by simpa using hg
          rw [h1]
          have := ih ks'
          simp only [pendingItems] at this
          cases hgk : (((⟨it.sequence, it.weight, 0, it.address⟩ :
              STM.SlotItem).grade == 100)) <;> simp <;> omega
    · simp only [processItemsWeight, if_neg hg, pendingItems, List.filter_cons]
      have := ih ks
      simp only [pendingItems] at this
      cases hgk : it.grade == 100 <;> simp <;> omega

/-- An item pass that modified something strictly decreased the pending
count, provided the data manager never yields the PENDING sentinel 100. -/
theorem processItemsWeight_modified_lt {κ : Type}
    (kick : κ → String → Int → Int → Option Int × κ) (letter : String)
    (count : Int) (ks : κ) (its : List STM.SlotItem)
    (hkick : ∀ (ks0 : κ) (l : String) (w c : Int), (kick ks0 l w c).1 ≠ some 100)
    (h : (processItemsWeight kick letter count ks its).2.1 = true) :
    pendingItems (processItemsWeight kick letter count ks its).1 <
      pendingItems its := by
  induction its generalizing ks with
  | nil => exact Bool.noConfusion h
  | cons it rest ih =>
    by_cases hg : it.grade = 100
    · cases hk : kick ks letter it.weight count with
      | mk o ks' =>
        cases o with
        | some k =>
          have hkne : k ≠ 100 := by
            intro hEq
            exact hkick ks letter it.weight count (by rw [hk, hEq])
          simp only [processItemsWeight, if_pos hg, hk, pendingItems,
            List.filter_cons]
          have h1 : (it.grade == 100) = true := by simpa using hg
          have h2 : (((⟨it.sequence, it.weight, k, it.address⟩ :
              STM.SlotItem).grade == 100)) = false := by simpa using hkne
          rw [h1, h2]
          have := processItemsWeight_pending_le kick letter count ks' rest
          simp only [pendingItems] at this
          simp
          omega
        | none =>
          simp only [processItemsWeight, if_pos hg, hk, pendingItems,
            List.filter_cons]
          have h1 : (it.grade == 100) = true := by simpa using hg
          have h2 : (((⟨it.sequence, it.weight, 0, it.address⟩ :
              STM.SlotItem).grade == 100)) = false := by rfl
          rw [h1, h2]
          have := processItemsWeight_pending_le kick letter count ks' rest
          simp only [pendingItems] at this
          simp
          omega
    · simp only [processItemsWeight, if_neg hg] at h ⊢
      simp only [pendingItems, List.filter_cons]
      have h1 : (it.grade == 100) = false := by simpa using hg
      rw [h1]
      have := ih ks h
      simp only [pendingItems] at this
      simp
      omega

/-- A channel pass that reports no modification left the cache untouched. -/
theorem processChannelsWeight_not_modified {κ : Type}
    (kick : κ → String → Int → Int → Option Int × κ) (count : Int) (ks : κ)
    (data : STM.ChannelsData)
    (h : (processChannelsWeight kick count ks data).2.1 = false) :
    (processChannelsWeight kick count ks data).1 = data := by
  induction data generalizing ks with
  | nil => rfl
  | cons c rest ih =>
    obtain ⟨k, v⟩ := c
    cases v with
    | none =>
      simp only [processChannelsWeight] at h ⊢
      rw [ih ks h]
    | some its =>
      by_cases he : its.isEmpty
      · simp only [processChannelsWeight, if_pos he] at h ⊢
        rw [ih ks h]
      · simp only [processChannelsWeight, if_neg he] at h ⊢
        obtain ⟨h1, h2⟩ := Bool.or_eq_false_iff.mp h
        rw [processItemsWeight_not_modified kick _ count ks its h1, ih _ h2]

/-- The channel pass never increases the pending count of the cache. -/
theorem processChannelsWeight_pending_le {κ : Type}
    (kick : κ → String → Int → Int → Option Int × κ) (count : Int) (ks : κ)
    (data : STM.ChannelsData) :
    pendingCount (processChannelsWeight kick count ks data).1 ≤
      pendingCount data := by
  induction data generalizing ks with
  | nil => exact le_refl _
  | cons c rest ih =>
    obtain ⟨k, v⟩ := c
    cases v with
    | none =>
      simp only [processChannelsWeight, pendingCount, List.map_cons,
        List.sum_cons, pendingChan]
      have := ih ks
      simp only [pendingCount, pendingChan] at this
      omega
    | some its =>
      by_cases he : its.isEmpty
      · simp only [processChannelsWeight, if_pos he, pendingCount,
          List.map_cons, List.sum_cons, pendingChan]
        have := ih ks
        simp only [pendingCount, pendingChan] at this
        omega
      · simp only [processChannelsWeight, if_neg he, pendingCount,
          List.map_cons, List.sum_cons, pendingChan]
        have h1 := processItemsWeight_pending_le kick (STM.letterOf k).toUpper
          count ks its
        have h2 := ih (processItemsWeight kick (STM.letterOf k).toUpper
          count ks its).2.2
        simp only [pendingCount, pendingChan] at h2
        omega

/-- A channel pass that modified something strictly decreased the pending
count, provided the data manager never yields the PENDING sentinel. -/
theorem processChannelsWeight_modified_lt {κ : Type}
    (kick : κ → String → Int → Int → Option Int × κ) (count : Int) (ks : κ)
    (data : STM.ChannelsData)
    (hkick : ∀ (ks0 : κ) (l : String) (w c : Int), (kick ks0 l w c).1 ≠ some 100)
    (h : (processChannelsWeight kick count ks data).2.1 = true) :
    pendingCount (processChannelsWeight kick count ks data).1 <
      pendingCount data := by
  induction data generalizing ks with
  | nil => exact Bool.noConfusion h
  | cons c rest ih =>
    obtain ⟨k, v⟩ := c
    cases v with
    | none =>
      simp only [processChannelsWeight, pendingCount, List.map_cons,
        List.sum_cons, pendingChan] at h ⊢
      have := ih ks h
      simp only [pendingCount, pendingChan] at this
      omega
    | some its =>
      by_cases he : its.isEmpty
      · simp only [processChannelsWeight, if_pos he, pendingCount,
          List.map_cons, List.sum_cons, pendingChan] at h ⊢
        have := ih ks h
        simp only [pendingCount, pendingChan] at this
        omega
      · simp only [processChannelsWeight, if_neg he, pendingCount,
          List.map_cons, List.sum_cons, pendingChan] at h ⊢
        by_cases hri : (processItemsWeight kick (STM.letterOf k).toUpper
            count ks its).2.1 = true
        · have hlt := processItemsWeight_modified_lt kick
            (STM.letterOf k).toUpper count ks its hkick hri
          have hle := processChannelsWeight_pending_le kick count
            (processItemsWeight kick (STM.letterOf k).toUpper count ks its).2.2
            rest
          simp only [pendingCount, pendingChan] at hle
          omega
        · have h1 : (processItemsWeight kick (STM.letterOf k).toUpper
              count ks its).2.1 = false := by
            cases hv : (processItemsWeight kick (STM.letterOf k).toUpper
                count ks its).2.1
            · rfl
            · exact absurd hv hri
          rw [h1] at h
          simp only [Bool.false_or] at h
          have heq := processItemsWeight_pending_le kick
            (STM.letterOf k).toUpper count ks its
          have hlt := ih (processItemsWeight kick (STM.letterOf k).toUpper
            count ks its).2.2 h
          simp only [pendingCount, pendingChan] at hlt
          omega

/-- Unmodified weight pass (guard included) leaves the cache untouched. -/
theorem processWeightSortingCached_not_modified {κ : Type}
    (enableWeight : Bool) (ranges : List STM.WeightRange)
    (kick : κ → String → Int → Int → Option Int × κ) (count : Int) (ks : κ)
    (data : STM.ChannelsData)
    (h : (processWeightSortingCached enableWeight ranges kick count ks
      data).2.1 = false) :
    (processWeightSortingCached enableWeight ranges kick count ks data).1 =
      data := by
  unfold processWeightSortingCached at h ⊢
  by_cases hgd : (!enableWeight || ranges.isEmpty || data.isEmpty) = true
  · rw [if_pos hgd]
  · rw [if_neg hgd] at h ⊢
    exact processChannelsWeight_not_modified kick count ks data h

/-- The weight pass (guard included) never increases the pending count. -/
theorem processWeightSortingCached_pending_le {κ : Type}
    (enableWeight : Bool) (ranges : List STM.WeightRange)
    (kick : κ → String → Int → Int → Option Int × κ) (count : Int) (ks : κ)
    (data : STM.ChannelsData) :
    pendingCount (processWeightSortingCached enableWeight ranges kick count ks
      data).1 ≤ pendingCount data := by
  unfold processWeightSortingCached
  by_cases hgd : (!enableWeight || ranges.isEmpty || data.isEmpty) = true
  · rw [if_pos hgd]
  · rw [if_neg hgd]
    exact processChannelsWeight_pending_le kick count ks data

/-- A modified weight pass (guard included) strictly decreases the pending
count when the data manager never yields the sentinel. -/
theorem processWeightSortingCached_modified_lt {κ : Type}
    (enableWeight : Bool) (ranges : List STM.WeightRange)
    (kick : κ → String → Int → Int → Option Int × κ) (count : Int) (ks : κ)
    (data : STM.ChannelsData)
    (hkick : ∀ (ks0 : κ) (l : String) (w c : Int), (kick ks0 l w c).1 ≠ some 100)
    (h : (processWeightSortingCached enableWeight ranges kick count ks
      data).2.1 = true) :
    pendingCount (processWeightSortingCached enableWeight ranges kick count ks
      data).1 < pendingCount data := by
  unfold processWeightSortingCached at h ⊢
  by_cases hgd : (!enableWeight || ranges.isEmpty || data.isEmpty) = true
  · rw [if_pos hgd] at h
    exact Bool.noConfusion h
  · rw [if_neg hgd] at h ⊢
    exact processChannelsWeight_modified_lt kick count ks data hkick h

/-- Unmodified custom pass (guard included) leaves the cache untouched. -/
theorem processCustomSortingCached_not_modified (enableCustom : Bool)
    (count : Int) (tasks : List Task) (data : STM.ChannelsData)
    (h : (processCustomSortingCached enableCustom count tasks data).modified
      = false) :
    (processCustomSortingCached enableCustom count tasks data).data = data := by
  unfold processCustomSortingCached at h ⊢
  by_cases hgd : (!enableCustom || data.isEmpty) = true
  · rw [if_pos hgd]
  · rw [if_neg hgd] at h ⊢
    exact processCustomTasks_not_modified count tasks data h

/-- The custom pass (guard included) never increases the pending count. -/
theorem processCustomSortingCached_pending_le (enableCustom : Bool)
    (count : Int) (tasks : List Task) (data : STM.ChannelsData) :
    pendingCount (processCustomSortingCached enableCustom count tasks
      data).data ≤ pendingCount data := by
  unfold processCustomSortingCached
  by_cases hgd : (!enableCustom || data.isEmpty) = true
  · rw [if_pos hgd]
  · rw [if_neg hgd]
    exact processCustomTasks_pending_le count tasks data

/-- A modified custom pass (guard included) strictly decreases the pending
count when no task's lane is the sentinel. -/
theorem processCustomSortingCached_modified_lt (enableCustom : Bool)
    (count : Int) (tasks : List Task) (data : STM.ChannelsData)
    (hsl : ∀ t ∈ tasks, t.sort_channel ≠ 100)
    (h : (processCustomSortingCached enableCustom count tasks data).modified
      = true) :
    pendingCount (processCustomSortingCached enableCustom count tasks
      data).data < pendingCount data := by
  unfold processCustomSortingCached at h ⊢
  by_cases hgd : (!enableCustom || data.isEmpty) = true
  · rw [if_pos hgd] at h
    exact Bool.noConfusion h
  · rw [if_neg hgd] at h ⊢
    exact processCustomTasks_modified_lt count tasks data hsl h

/-- C2: in every cached monitor cycle the write-back is batched: at most one
batch_write_from_cached_data call is made and the underlying network write
requests equal the number of batch calls (one bulk request per call, never
O(K) in the number K of mutated slots); whenever any slot's grade differs
after the cycle, exactly one batch call was made; and — provided neither the
data manager nor any override task assigns the PENDING sentinel 100 — a
cycle that leaves every grade unchanged makes no write call at all. -/
theorem cached_cycle_single_batch_write {κ : Type}
    (enableCustom enableWeight : Bool) (ranges : List STM.WeightRange)
    (kick : κ → String → Int → Int → Option Int × κ) (count : Int) (ks : κ)
    (tasks : List Task) (data : STM.ChannelsData) (writeOk : Bool) :
    (monitorCycleCached enableCustom enableWeight ranges kick count ks tasks
      data writeOk).batchCalls ≤ 1 ∧
    (monitorCycleCached enableCustom enableWeight ranges kick count ks tasks
      data writeOk).netWrites =
      (monitorCycleCached enableCustom enableWeight ranges kick count ks tasks
        data writeOk).batchCalls ∧
    ((monitorCycleCached enableCustom enableWeight ranges kick count ks tasks
        data writeOk).data ≠ data →
      (monitorCycleCached enableCustom enableWeight ranges kick count ks tasks
        data writeOk).batchCalls = 1) ∧
    ((∀ (ks0 : κ) (l : String) (w c : Int), (kick ks0 l w c).1 ≠ some 100) →
      (∀ t ∈ tasks, t.sort_channel ≠ 100) →
      (monitorCycleCached enableCustom enableWeight ranges kick count ks tasks
        data writeOk).data = data →
      (monitorCycleCached enableCustom enableWeight ranges kick count ks tasks
        data writeOk).batchCalls = 0) := by
  set M := monitorCycleCached enableCustom enableWeight ranges kick count ks
    tasks data writeOk with hM
  by_cases hd : data.isEmpty = true
  · have hM2 : M = ⟨tasks, [], data, 0, 0, ks⟩ := by
      rw [hM]; unfold monitorCycleCached; rw [if_pos hd]
    rw [hM2]
    exact ⟨Nat.zero_le 1, rfl, fun hne => absurd rfl hne, fun _ _ _ => rfl⟩
  · set rc := (if enableCustom then
        processCustomSortingCached enableCustom count tasks data
      else (⟨tasks, [], data, false⟩ : CustomResult)) with hrcdef
    set rw0 := (if enableWeight then
        processWeightSortingCached enableWeight ranges kick count ks rc.data
      else (rc.data, false, ks)) with hrwdef
    have hrcle : pendingCount rc.data ≤ pendingCount data := by
      rw [hrcdef]
      by_cases hec : enableCustom = true
      · rw [if_pos hec]
        exact processCustomSortingCached_pending_le enableCustom count tasks data
      · rw [if_neg hec]
    have hrwle : pendingCount rw0.1 ≤ pendingCount rc.data := by
      rw [hrwdef]
      by_cases hew : enableWeight = true
      · rw [if_pos hew]
        exact processWeightSortingCached_pending_le enableWeight ranges kick
          count ks rc.data
      · rw [if_neg hew]
    have hM2 : M = if rc.modified || rw0.2.1 then
        ⟨rc.remaining, rc.removed, rw0.1, 1, 1, rw0.2.2⟩
      else ⟨rc.remaining, rc.removed, rw0.1, 0, 0, rw0.2.2⟩ := by
      rw [hM]; unfold monitorCycleCached; rw [if_neg hd]
      rw [hrwdef, hrcdef]
      rfl
    rw [hM2]
    by_cases hm : (rc.modified || rw0.2.1) = true
    · rw [if_pos hm]
      refine ⟨le_refl 1, rfl, fun _ => rfl, ?_⟩
      intro hkick hsl heq
      exfalso
      have h3 : rw0.1 = data := heq
      by_cases hmc : rc.modified = true
      · have h1 : pendingCount rc.data < pendingCount data := by
          rw [hrcdef] at hmc ⊢
          by_cases hec : enableCustom = true
          · rw [if_pos hec] at hmc ⊢
            exact processCustomSortingCached_modified_lt enableCustom count
              tasks data hsl hmc
          · rw [if_neg hec] at hmc
            exact Bool.noConfusion hmc
        rw [h3] at hrwle
        omega
      · have hmcf : rc.modified = false := by
          cases hv : rc.modified
          · rfl
          · exact absurd hv hmc
        have hmw : rw0.2.1 = true := by
          rw [hmcf] at hm
          simpa using hm
        have h2 : pendingCount rw0.1 < pendingCount rc.data := by
          rw [hrwdef] at hmw ⊢
          by_cases hew : enableWeight = true
          · rw [if_pos hew] at hmw ⊢
            exact processWeightSortingCached_modified_lt enableWeight ranges
              kick count ks rc.data hkick hmw
          · rw [if_neg hew] at hmw
            exact Bool.noConfusion hmw
        rw [h3] at h2
        omega
    · rw [if_neg hm]
      refine ⟨Nat.zero_le 1, rfl, ?_, fun _ _ _ => rfl⟩
      intro hne
      exfalso
      have hmf : (rc.modified || rw0.2.1) = false := by
        cases hv : (rc.modified || rw0.2.1)
        · rfl
        · exact absurd hv hm
      obtain ⟨hmc, hmw⟩ := Bool.or_eq_false_iff.mp hmf
      have h1 : rc.data = data := by
        rw [hrcdef] at hmc ⊢
        by_cases hec : enableCustom = true
        · rw [if_pos hec] at hmc ⊢
          exact processCustomSortingCached_not_modified enableCustom count
            tasks data hmc
        · rw [if_neg hec]
      have h2 : rw0.1 = rc.data := by
        rw [hrwdef] at hmw ⊢
        by_cases hew : enableWeight = true
        · rw [if_pos hew] at hmw ⊢
          exact processWeightSortingCached_not_modified enableWeight ranges
            kick count ks rc.data hmw
        · rw [if_neg hew]
      exact hne (show rw0.1 = data by rw [h2, h1])

/-- C2 witness: with a data manager yielding lane 5, a cycle over one
pending slot mutates the cache and makes exactly one batch call issuing one
network write; a cycle over a cache with no pending slot changes nothing
and makes no write call. -/
theorem cached_cycle_single_batch_write_witness :
    (monitorCycleCached true true [⟨0, 10, 1⟩]
        (fun (_ : Unit) _ _ _ => (some 5, ())) 0 () []
        [("channel_A", some [⟨1, 5, 100, 14⟩])] true).batchCalls = 1 ∧
    (monitorCycleCached true true [⟨0, 10, 1⟩]
        (fun (_ : Unit) _ _ _ => (some 5, ())) 0 () []
        [("channel_A", some [⟨1, 5, 0, 14⟩])] true).batchCalls = 0 := by
  constructor
  · exact (cached_cycle_single_batch_write true true [⟨0, 10, 1⟩]
      (fun (_ : Unit) _ _ _ => (some 5, ())) 0 () []
      [("channel_A", some [⟨1, 5, 100, 14⟩])] true).2.2.1 (by decide)
  · exact (cached_cycle_single_batch_write true true [⟨0, 10, 1⟩]
      (fun (_ : Unit) _ _ _ => (some 5, ())) 0 () []
      [("channel_A", some [⟨1, 5, 0, 14⟩])] true).2.2.2
      (by intro ks0 l w c h; simp at h) (by intro t ht; simp at ht)
      (by decide)

/-- C6: the override-task state machine of the cached custom pass.  With an
all-Pending active list: (1) no task left active is terminal, and (2) every
removed task is terminal with a recorded outcome; (3) a Pending task whose
targetPosition equals the Counter value, when the target channel's first
sequence-1 slot is PENDING (grade 100), becomes Succeeded, is removed, and
the cache is updated by setting exactly that slot's grade — (4) which then
carries the task's sortLane; (5) a Pending task whose targetPosition lies
below the Counter value becomes Missed and is removed with the cache
untouched; (6) the pass never modifies any slot with sequence other than
1. -/
theorem override_task_state_machine :
    (∀ (count : Int) (tasks : List Task) (data : STM.ChannelsData),
      (∀ t ∈ tasks, t.executed = false) →
      (∀ t ∈ (processCustomTasks count tasks data).remaining,
        t.executed = false)) ∧
    (∀ (count : Int) (tasks : List Task) (data : STM.ChannelsData),
      ∀ t ∈ (processCustomTasks count tasks data).removed,
        t.executed = true ∧ t.success ≠ none) ∧
    (∀ (count : Int) (task : Task) (data : STM.ChannelsData)
      (its : List STM.SlotItem) (it : STM.SlotItem),
      task.executed = false → count = task.target_count →
      lookupChannel data ("channel_" ++ task.target_channel) = some its →
      its.find? (fun x => x.sequence == 1) = some it → it.grade = 100 →
      processCustomTasks count [task] data =
        ⟨[], [task.markExecuted true],
         updateSeq1 data ("channel_" ++ task.target_channel) task.sort_channel,
         true⟩) ∧
    (∀ (g : Int) (its : List STM.SlotItem) (it : STM.SlotItem),
      its.find? (fun x => x.sequence == 1) = some it →
      (setSeq1Grade g its).find? (fun x => x.sequence == 1) =
        some ⟨it.sequence, it.weight, g, it.address⟩) ∧
    (∀ (count : Int) (task : Task) (data : STM.ChannelsData),
      task.executed = false → task.target_count < count →
      processCustomTasks count [task] data =
        ⟨[], [task.markExecuted false], data, false⟩) ∧
    (∀ (count : Int) (tasks : List Task) (data : STM.ChannelsData),
      eraseSeq1Grades (processCustomTasks count tasks data).data =
        eraseSeq1Grades data) := by
  refine ⟨?_, ?_, ?_, ?_, ?_, ?_⟩
  · intro count tasks data hall t ht
    exact hall t (processCustomTasks_remaining_mem count tasks data t ht)
  · exact processCustomTasks_removed_executed
  · intro count task data its it hexec hcount hc hf hg
    have h1 : ¬ task.executed = true := by rw [hexec]; exact Bool.false_ne_true
    simp only [processCustomTasks, if_neg h1, if_pos hcount, hc, hf, if_pos hg]
  · exact setSeq1Grade_find
  · intro count task data hexec hlt
    have h1 : ¬ task.executed = true := by rw [hexec]; exact Bool.false_ne_true
    have h2 : ¬ count = task.target_count := by omega
    simp only [processCustomTasks, if_neg h1, if_neg h2, if_pos hlt]
  · exact processCustomTasks_erase

/-- C6 witness: counter at 5 fires the (target 5, lane 7, channel A) task on
a pending sequence-1 slot — Succeeded, removed, grade 7 written, the
sequence-2 slot untouched; counter at 6 misses the same task — Missed,
removed, cache untouched. -/
theorem override_task_state_machine_witness :
    processCustomTasks 5 [⟨5, 7, "A", false, none⟩]
        [("channel_A", some [⟨1, 500, 100, 14⟩, ⟨2, 600, 100, 17⟩])] =
      ⟨[], [⟨5, 7, "A", true, some true⟩],
       [("channel_A", some [⟨1, 500, 7, 14⟩, ⟨2, 600, 100, 17⟩])], true⟩ ∧
    processCustomTasks 6 [⟨5, 7, "A", false, none⟩]
        [("channel_A", some [⟨1, 500, 100, 14⟩])] =
      ⟨[], [⟨5, 7, "A", true, some false⟩],
       [("channel_A", some [⟨1, 500, 100, 14⟩])], false⟩ := by
  constructor
  · have h := override_task_state_machine.2.2.1 5 ⟨5, 7, "A", false, none⟩
      [("channel_A", some [⟨1, 500, 100, 14⟩, ⟨2, 600, 100, 17⟩])]
      [⟨1, 500, 100, 14⟩, ⟨2, 600, 100, 17⟩] ⟨1, 500, 100, 14⟩
      rfl rfl (by rfl) (by rfl) rfl
    exact h.trans (by rfl)
  · have h := override_task_state_machine.2.2.2.2.1 6 ⟨5, 7, "A", false, none⟩
      [("channel_A", some [⟨1, 500, 100, 14⟩])] rfl (by decide)
    exact h.trans (by rfl)

end CTM
